import Mathlib

/-!
# logstash_exporter: the remote fetcher and the collection orchestrator

A shallow embedding of

* `collector/api_base.go`: `HTTPHandler.Get` and `getMetrics`;
* `logstash_exporter.go`: the package variable `scrapeDurations`,
  `LogstashCollector.Collect`, `execute` and the registry built in `main`.

Effects are made explicit.  `getMetrics` returns, next to its Go return value,
the target after the call and the list of effects it performed.  The
orchestrator is a step machine: one step of the calling goroutine or of one of
the goroutines it launches; a schedule (a list of actions) picks the
interleaving.
-/

namespace Logstash

/-! ## collector/api_base.go -/

/-- A Go `error` value; `none` in an `Option Err` is the nil error. -/
abbrev Err := String

/-- The `Body` of an `http.Response`: what a reader gets from it and what
`Body.Close()` returns. -/
structure Body where
  content : String
  closeErr : Option Err
deriving DecidableEq, Repr

/-- The fields of `http.Response` that matter here. -/
structure Response where
  StatusCode : Nat
  Body : Body
deriving DecidableEq, Repr

/-- The value `http.Response{}` returned by `Get` next to an error; its nil
`Body` is an empty one here, and `getMetrics` never reaches it (net/http gives
a non-nil `Body` whenever the error is nil). -/
def Response.zero : Response := ⟨0, ⟨"", none⟩⟩

/-- What `http.Get(url)` does in one call: a transport error, or a response
(net/http reports a non-2xx status as a response, not as an error). -/
abbrev Network := String → Except Err Response

/-- The type `HTTPHandler`. -/
structure HTTPHandler where
  Endpoint : String
deriving DecidableEq, Repr

/-- The method `(h *HTTPHandler) Get()`, lines 18-25. -/
def HTTPHandler.Get (net : Network) (h : HTTPHandler) : Response × Option Err :=
  match net h.Endpoint with
  | .error err => (Response.zero, some err)
  | .ok response => (response, none)

/-- The interface `HTTPHandlerInterface`: the pair one call of `Get()` returns. -/
structure HTTPHandlerInterface where
  Get : Response × Option Err

/-- An `HTTPHandler` seen through the interface. -/
def HTTPHandler.toInterface (net : Network) (h : HTTPHandler) : HTTPHandlerInterface :=
  ⟨h.Get net⟩

/-- What `json.NewDecoder(body).Decode(target)` does with what it reads from
the body: the target after the call (the decoder may have written to it even
when it fails) and the error. -/
abbrev Decoder (τ : Type) := String → τ → τ × Option Err

/-- The effects of `getMetrics`, in the order they happen. -/
inductive Effect where
  | get
  | logError (msg : String) (err : Err)
  | decode (body : Body)
  | close (body : Body)
deriving DecidableEq, Repr

/-- What a call of `getMetrics` leaves behind. -/
structure Fetched (τ : Type) where
  ret : Option Err
  target : τ
  effects : List Effect

/-- The deferred function of `getMetrics`, lines 41-45. -/
def closeBody (body : Body) : List Effect :=
  match body.closeErr with
  | some err => [.close body, .logError "Cannot close response body" err]
  | none => [.close body]

/-- The function `getMetrics`, lines 32-53. -/
def getMetrics {τ : Type} (dec : Decoder τ) (h : HTTPHandlerInterface) (target : τ) :
    Fetched τ :=
  match h.Get with
  | (_, some err) =>
    ⟨some err, target, [.get, .logError "Cannot retrieve metrics" err]⟩
  | (response, none) =>
    match dec response.Body.content target with
    | (target', some err) =>
      ⟨some err, target',
        [.get, .decode response.Body,
          .logError "Cannot parse Logstash response json" err] ++ closeBody response.Body⟩
    | (target', none) =>
      ⟨none, target', [.get, .decode response.Body] ++ closeBody response.Body⟩

/-- Is the effect a call of the JSON decoder. -/
def Effect.isDecode : Effect → Bool
  | .decode _ => true
  | _ => false

/-- Is the effect a call of `Body.Close()`. -/
def Effect.isClose : Effect → Bool
  | .close _ => true
  | _ => false

/-- A decoder that accepts the empty JSON object and nothing else;
`encoding/json` decodes `{}` into any struct and leaves its fields as they
were. -/
def decodeEmptyObject : Decoder Nat := fun content target =>
  if content = "\x7b\x7d" then (target, none) else (target, some "invalid character")

/-! ## logstash_exporter.go -/

/-- The label values of one child of `scrapeDurations`, in the order of its
label names `collector`, `result`. -/
abbrev Labels := String × String

/-- One child of a `prometheus.SummaryVec`: how many observations it got and
their sum (durations are kept in nanoseconds). -/
structure Summary where
  count : Nat
  sum : Nat
deriving DecidableEq, Repr

/-- The method `Observe` of a summary. -/
def Summary.Observe (s : Summary) (d : Nat) : Summary := ⟨s.count + 1, s.sum + d⟩

/-- The state of a `prometheus.SummaryVec`: its children, by label values. -/
abbrev SummaryVec := List (Labels × Summary)

/-- The call `v.WithLabelValues(lv...).Observe(d)`: the child with these label
values is created when it does not exist yet, and gets the observation. -/
def SummaryVec.Observe : SummaryVec → Labels → Nat → SummaryVec
  | [], lv, d => [(lv, Summary.Observe ⟨0, 0⟩ d)]
  | (k, s) :: rest, lv, d =>
    if k = lv then (k, s.Observe d) :: rest else (k, s) :: SummaryVec.Observe rest lv d

/-- A sample of the family `scrape_duration_seconds`. -/
structure ScrapeSample where
  collector : String
  result : String
  count : Nat
  sum : Nat
deriving DecidableEq, Repr

/-- The label values of a scrape-duration sample. -/
def ScrapeSample.labels (x : ScrapeSample) : Labels := (x.collector, x.result)

/-- The method `Collect` of a `prometheus.SummaryVec`: one sample per child. -/
def SummaryVec.Collect (v : SummaryVec) : List ScrapeSample :=
  v.map fun e => ⟨e.1.1, e.1.2, e.2.count, e.2.sum⟩

/-- The label values that have a child. -/
def SummaryVec.keys (v : SummaryVec) : List Labels := v.map Prod.fst

/-- How many observations the child with these label values holds. -/
def SummaryVec.observations (v : SummaryVec) (lv : Labels) : Nat :=
  match v.lookup lv with
  | some s => s.count
  | none => 0

/-- A `prometheus.Metric` on the channel: a sample of a registered collector
(of type `σ`; the descriptor of `scrapeDurations` is private to package main),
or a sample of `scrapeDurations`. -/
inductive Metric (σ : Type) where
  | domain (x : σ)
  | scrapeDuration (x : ScrapeSample)
deriving DecidableEq, Repr

/-- The samples of the registered collectors among what was sent. -/
def domainSamples {σ : Type} : List (Metric σ) → List σ
  | [] => []
  | .domain x :: rest => x :: domainSamples rest
  | .scrapeDuration _ :: rest => domainSamples rest

/-- The scrape-duration samples among what was sent. -/
def scrapeSamples {σ : Type} : List (Metric σ) → List ScrapeSample
  | [] => []
  | .domain _ :: rest => scrapeSamples rest
  | .scrapeDuration x :: rest => x :: scrapeSamples rest

/-- A value of the interface `collector.Collector`, by what one call of its
`Collect(ch)` does when it returns: the samples it sends on `ch`, in order, the
error it returns, and the time that passes between the two clock readings of
`execute` around the call. -/
structure Collector (σ : Type) where
  emitted : List σ
  err : Option Err
  elapsed : Nat
deriving DecidableEq, Repr

/-- The value of `result` in `execute`, lines 62-70. -/
def resultOf (err : Option Err) : String :=
  match err with
  | some _ => "error"
  | none => "success"

/-- What `execute` reads and writes: the channel and `scrapeDurations`. -/
structure Shared (σ : Type) where
  ch : List (Metric σ)
  scrapeDurations : SummaryVec
deriving DecidableEq, Repr

/-- The function `execute`, lines 55-72, run without interruption (its two
debug log lines write to neither the channel nor `scrapeDurations` and are
left out). -/
def execute {σ : Type} (name : String) (c : Collector σ) (s : Shared σ) : Shared σ :=
  let ch := s.ch ++ c.emitted.map Metric.domain
  let result := resultOf c.err
  ⟨ch, s.scrapeDurations.Observe (name, result) c.elapsed⟩

/-- The type `LogstashCollector`: the map `collectors`, as the list of its
entries in the order the `range` loop of this call visits them. -/
structure LogstashCollector (σ : Type) where
  collectors : List (String × Collector σ)
deriving DecidableEq, Repr

/-- Where a launched goroutine `func(name, c) { execute(name, c, ch); wg.Done() }`
stands. -/
inductive UnitPc where
  | idle
  | launched
  | sending (j : Nat)
  | observed
  | done
deriving DecidableEq, Repr

/-- One goroutine of `Collect` with its arguments. -/
structure Worker (σ : Type) where
  name : String
  c : Collector σ
  pc : UnitPc
deriving DecidableEq, Repr

/-- Where the goroutine that called `Collect` stands: in the `range` loop
with `k` goroutines launched, blocked in `wg.Wait()`, about to call
`scrapeDurations.Collect(ch)`, or returned. -/
inductive MainPc where
  | launching (k : Nat)
  | waiting
  | aggregating
  | returned
deriving DecidableEq, Repr

/-- The state of one call of `LogstashCollector.Collect`; `calls` lists the
collectors whose `Collect` was invoked, in the order of the invocations. -/
structure State (σ : Type) where
  main : MainPc
  workers : List (Worker σ)
  wg : Int
  ch : List (Metric σ)
  scrapeDurations : SummaryVec
  calls : List String
deriving DecidableEq, Repr

/-- The state after `wg := sync.WaitGroup{}; wg.Add(len(coll.collectors))`,
lines 43-44, with `scrapeDurations` as the process left it. -/
def State.init {σ : Type} (coll : LogstashCollector σ) (v : SummaryVec) : State σ :=
  { main := .launching 0
    workers := coll.collectors.map fun e => ⟨e.1, e.2, .idle⟩
    wg := coll.collectors.length
    ch := []
    scrapeDurations := v
    calls := [] }

/-- One step of the calling goroutine, lines 45-53; `none` when it is blocked
or has returned. -/
def stepMain {σ : Type} (s : State σ) : Option (State σ) :=
  match s.main with
  | .launching k =>
    match s.workers[k]? with
    | some w =>
      some { s with main := .launching (k + 1), workers := s.workers.set k { w with pc := .launched } }
    | none => some { s with main := .waiting }
  | .waiting => if s.wg = 0 then some { s with main := .aggregating } else none
  | .aggregating =>
    some { s with main := .returned,
                  ch := s.ch ++ s.scrapeDurations.Collect.map Metric.scrapeDuration }
  | .returned => none

/-- One step of the goroutine launched for the `i`-th entry, lines 46-49 and
55-72: it enters `c.Collect(ch)`, sends one sample, returns from it and
records the observation, or calls `wg.Done()` (which panics on a negative
counter); `none` when it cannot move. -/
def stepUnit {σ : Type} (i : Nat) (s : State σ) : Option (State σ) :=
  match s.workers[i]? with
  | none => none
  | some w =>
    match w.pc with
    | .idle => none
    | .launched =>
      some { s with workers := s.workers.set i { w with pc := .sending 0 },
                    calls := s.calls ++ [w.name] }
    | .sending j =>
      match w.c.emitted[j]? with
      | some x =>
        some { s with workers := s.workers.set i { w with pc := .sending (j + 1) },
                      ch := s.ch ++ [Metric.domain x] }
      | none =>
        some { s with workers := s.workers.set i { w with pc := .observed },
                      scrapeDurations :=
                        s.scrapeDurations.Observe (w.name, resultOf w.c.err) w.c.elapsed }
    | .observed =>
      if s.wg ≤ 0 then none
      else some { s with workers := s.workers.set i { w with pc := .done }, wg := s.wg - 1 }
    | .done => none

/-- Which goroutine moves next. -/
inductive Action where
  | main
  | unit (i : Nat)
deriving DecidableEq, Repr

/-- One step of the machine. -/
def step {σ : Type} (a : Action) (s : State σ) : Option (State σ) :=
  match a with
  | .main => stepMain s
  | .unit i => stepUnit i s

/-- The steps of a schedule, one after the other; `none` when the schedule
asks a goroutine to move that cannot. -/
def exec {σ : Type} : List Action → State σ → Option (State σ)
  | [], s => some s
  | a :: rest, s =>
    match step a s with
    | some t => exec rest t
    | none => none

/-- The method `LogstashCollector.Collect`, lines 42-53, under a schedule:
what was sent on `ch` and the state of `scrapeDurations` when it returns. -/
def LogstashCollector.Collect {σ : Type} (coll : LogstashCollector σ) (sched : List Action)
    (v : SummaryVec) : Option (Shared σ) :=
  match exec sched (State.init coll v) with
  | some s => if s.main = .returned then some ⟨s.ch, s.scrapeDurations⟩ else none
  | none => none

/-- The schedule that runs the goroutines one after the other, in the order
they were launched. -/
def sequentialSchedule {σ : Type} (coll : LogstashCollector σ) : List Action :=
  coll.collectors.map (fun _ => Action.main) ++ [Action.main] ++
    (coll.collectors.enum.flatMap fun e =>
      List.replicate (e.2.2.emitted.length + 3) (Action.unit e.1)) ++
    [Action.main, Action.main]

/-- The number of steps of a call of `Collect`. -/
def stepBound {σ : Type} (coll : LogstashCollector σ) : Nat :=
  (coll.collectors.map fun e => e.2.emitted.length + 4).sum + 3

/-- What a constructor `NewNodeStatsCollector` or `NewNodeInfoCollector`
returned: the collector value and the error. -/
abbrev Constructed (γ : Type) := γ × Option Err

/-- What `main` has done when it registers the orchestrator, lines 97-118:
the errors it logged and the map `collectors` it built. -/
structure Startup (γ : Type) where
  logged : List (String × Err)
  collectors : List (String × γ)
deriving DecidableEq, Repr

/-- The log call after a constructor, lines 98-102 and 105-109. -/
def logConstruction (err : Option Err) : List (String × Err) :=
  match err with
  | some e => [("Cannot register a new collector", e)]
  | none => []

/-- The lines 97-116 of `main`. -/
def mainRegistry {γ : Type} (nodeStats nodeInfo : Constructed γ) : Startup γ :=
  { logged := logConstruction nodeStats.2 ++ logConstruction nodeInfo.2
    collectors := [("node", nodeStats.1), ("info", nodeInfo.1)] }

/-! ## What each goroutine has contributed -/

/-- The samples a goroutine has sent on the channel so far. -/
def Worker.sent {σ : Type} (w : Worker σ) : List σ :=
  match w.pc with
  | .idle => []
  | .launched => []
  | .sending j => w.c.emitted.take j
  | .observed => w.c.emitted
  | .done => w.c.emitted

/-- The collector a goroutine has invoked so far. -/
def Worker.called {σ : Type} (w : Worker σ) : List String :=
  match w.pc with
  | .idle => []
  | .launched => []
  | _ => [w.name]

/-- The label values a goroutine observes a duration for. -/
def Worker.labels {σ : Type} (w : Worker σ) : Labels := (w.name, resultOf w.c.err)

/-- The label values a goroutine has observed a duration for so far. -/
def Worker.recorded {σ : Type} (w : Worker σ) : List Labels :=
  match w.pc with
  | .observed => [w.labels]
  | .done => [w.labels]
  | _ => []

/-- The calls of `wg.Done()` a goroutine has made so far. -/
def Worker.finished {σ : Type} (w : Worker σ) : List Unit :=
  match w.pc with
  | .done => [()]
  | _ => []

/-- The steps a goroutine has taken so far. -/
def Worker.progress {σ : Type} (w : Worker σ) : Nat :=
  match w.pc with
  | .idle => 0
  | .launched => 0
  | .sending j => 1 + min j w.c.emitted.length
  | .observed => w.c.emitted.length + 2
  | .done => w.c.emitted.length + 3

/-- The steps the calling goroutine has taken so far, among `n` entries. -/
def MainPc.progress (n : Nat) : MainPc → Nat
  | .launching k => min k n
  | .waiting => n + 1
  | .aggregating => n + 2
  | .returned => n + 3

/-- The steps taken so far in a state. -/
def State.progress {σ : Type} (s : State σ) : Nat :=
  s.main.progress s.workers.length + (s.workers.map Worker.progress).sum

/-- The steps a call takes in all, from the goroutines of a state. -/
def State.bound {σ : Type} (s : State σ) : Nat :=
  (s.workers.map fun w => w.c.emitted.length + 4).sum + 3

/-- What holds in every state a call of `Collect` on `coll` reaches, when
`scrapeDurations` was `v` at its start. -/
structure Inv {σ : Type} (coll : LogstashCollector σ) (v : SummaryVec) (s : State σ) : Prop where
  entries : s.workers.map (fun w => (w.name, w.c)) = coll.collectors
  notLaunched : ∀ k i w, s.main = .launching k → k ≤ i → s.workers[i]? = some w → w.pc = .idle
  launchedBefore : ∀ k i w, s.main = .launching k → i < k → s.workers[i]? = some w → w.pc ≠ .idle
  allLaunched : ∀ w ∈ s.workers, w.pc = .idle → ∃ k, s.main = .launching k
  counter : s.wg + ((s.workers.flatMap Worker.finished).length : Int) = s.workers.length
  joined : s.main = .aggregating ∨ s.main = .returned → ∀ w ∈ s.workers, w.pc = .done
  domain : (domainSamples s.ch).Perm (s.workers.flatMap Worker.sent)
  scrape : scrapeSamples s.ch = if s.main = .returned then s.scrapeDurations.Collect else []
  invoked : s.calls.Perm (s.workers.flatMap Worker.called)
  keysNodup : v.keys.Nodup → s.scrapeDurations.keys.Nodup
  keysMem : ∀ lv, lv ∈ s.scrapeDurations.keys ↔
    lv ∈ v.keys ∨ lv ∈ s.workers.flatMap Worker.recorded
  observed : ∀ lv, s.scrapeDurations.observations lv =
    v.observations lv + (s.workers.flatMap Worker.recorded).countP (fun x => decide (x = lv))

/-! ## Registries and schedules to run the call on -/

/-- A registry whose "node" collector sends two samples and whose "info"
collector fails. -/
def nodeAndInfo : LogstashCollector String :=
  ⟨[("node", ⟨["jvm_uptime_seconds", "events_in"], none, 5⟩),
    ("info", ⟨[], some "connection refused", 7⟩)]⟩

/-- A registry of two collectors that succeed. -/
def bothSucceed : LogstashCollector String :=
  ⟨[("node", ⟨["jvm_uptime_seconds", "events_in"], none, 5⟩),
    ("info", ⟨["node_info"], none, 2⟩)]⟩

/-- A schedule for two collectors of which the first sends two samples and
the second at most one, with the goroutines interleaved. -/
def interleaved : List Action :=
  [.main, .unit 0, .main, .unit 1, .unit 0, .main, .unit 1, .unit 0, .unit 1, .unit 0, .unit 1,
    .unit 0, .main, .main]

/-- A schedule for `nodeAndInfo`, with the goroutines interleaved. -/
def interleavedFailing : List Action :=
  [.main, .unit 0, .main, .unit 1, .unit 0, .main, .unit 1, .unit 0, .unit 1, .unit 0, .unit 0,
    .main, .main]

/-- The state `nodeAndInfo` reaches under `interleavedFailing`, from an empty
`scrapeDurations`. -/
def nodeAndInfoReturned : State String :=
  { main := .returned
    workers := [⟨"node", ⟨["jvm_uptime_seconds", "events_in"], none, 5⟩, .done⟩,
      ⟨"info", ⟨[], some "connection refused", 7⟩, .done⟩]
    wg := 0
    ch := [.domain "jvm_uptime_seconds", .domain "events_in",
      .scrapeDuration ⟨"info", "error", 1, 7⟩, .scrapeDuration ⟨"node", "success", 1, 5⟩]
    scrapeDurations := [(("info", "error"), ⟨1, 7⟩), (("node", "success"), ⟨1, 5⟩)]
    calls := ["node", "info"] }

/-- The registry with the "node" collector alone, failing. -/
def nodeFails : LogstashCollector String :=
  ⟨[("node", ⟨[], some "connection refused", 3⟩)]⟩

/-- The registry with the "node" collector alone, succeeding. -/
def nodeSucceeds : LogstashCollector String :=
  ⟨[("node", ⟨["jvm_uptime_seconds"], none, 5⟩)]⟩

/-- The registry with the "info" collector alone, failing. -/
def infoFails : LogstashCollector String :=
  ⟨[("info", ⟨[], some "unexpected EOF", 4⟩)]⟩

/-- The registry with the "info" collector alone, succeeding. -/
def infoSucceeds : LogstashCollector String :=
  ⟨[("info", ⟨["node_info"], none, 6⟩)]⟩

/-! ## Theorems: the remote fetcher -/

/-- C4: when the handler's Get returns an error e, getMetrics returns exactly
e, leaves the target as it was, and performs no decode and no close: its only
effects are the Get and the log line that carries e. -/
theorem getMetrics_get_error {τ : Type} (dec : Decoder τ) (h : HTTPHandlerInterface)
    (target : τ) (response : Response) (e : Err) (hget : h.Get = (response, some e)) :
    (getMetrics dec h target).ret = some e ∧
    (getMetrics dec h target).target = target ∧
    (getMetrics dec h target).effects = [.get, .logError "Cannot retrieve metrics" e] ∧
    (∀ x ∈ (getMetrics dec h target).effects, x.isDecode = false ∧ x.isClose = false) := by
  simp [getMetrics, hget, Effect.isDecode, Effect.isClose]

/-- Witness of C4: an unreachable endpoint. -/
theorem getMetrics_get_error_witness :
    (getMetrics decodeEmptyObject
        (HTTPHandler.toInterface (fun _ => .error "connection refused") ⟨"http://localhost:9600/_node"⟩)
        7).ret = some "connection refused" ∧
    (getMetrics decodeEmptyObject
        (HTTPHandler.toInterface (fun _ => .error "connection refused") ⟨"http://localhost:9600/_node"⟩)
        7).target = 7 :=
  have h := getMetrics_get_error decodeEmptyObject
    (HTTPHandler.toInterface (fun _ => .error "connection refused") ⟨"http://localhost:9600/_node"⟩)
    7 Response.zero "connection refused" rfl
  ⟨h.1, h.2.1⟩

/-- C5: when the handler's Get succeeds, getMetrics calls Close exactly once,
on the body of the response, and does so after the decode whether the decode
fails or not: the close is among the effects that follow the decode, and it is
the only one. -/
theorem getMetrics_closes_once {τ : Type} (dec : Decoder τ) (h : HTTPHandlerInterface)
    (target : τ) (response : Response) (hget : h.Get = (response, none)) :
    (getMetrics dec h target).effects.filter Effect.isClose = [.close response.Body] ∧
    (getMetrics dec h target).effects.countP Effect.isClose = 1 ∧
    (getMetrics dec h target).effects.take 2 = [.get, .decode response.Body] ∧
    ((getMetrics dec h target).effects.drop 2).countP Effect.isClose = 1 := by
  cases hd : dec response.Body.content target with
  | mk t derr =>
    cases derr <;> cases hc : response.Body.closeErr <;>
      simp [getMetrics, hget, hd, closeBody, hc, Effect.isClose, List.filter, List.countP,
        List.countP.go]

/-- Witness of C5: a body that does not decode and whose Close fails. -/
theorem getMetrics_closes_once_witness :
    (getMetrics decodeEmptyObject ⟨(⟨200, ⟨"<html>", some "already closed"⟩⟩, none)⟩
        7).effects.countP Effect.isClose = 1 :=
  (getMetrics_closes_once decodeEmptyObject ⟨(⟨200, ⟨"<html>", some "already closed"⟩⟩, none)⟩
    7 ⟨200, ⟨"<html>", some "already closed"⟩⟩ rfl).2.1

/-- After a successful Get, getMetrics returns what the decoder returns. -/
theorem getMetrics_ok {τ : Type} (dec : Decoder τ) (h : HTTPHandlerInterface)
    (target : τ) (response : Response) (hget : h.Get = (response, none)) :
    (getMetrics dec h target).ret = (dec response.Body.content target).2 ∧
    (getMetrics dec h target).target = (dec response.Body.content target).1 := by
  cases hd : dec response.Body.content target with
  | mk t derr => cases derr <;> simp [getMetrics, hget, hd]

/-- C6: when the handler's Get succeeds, what getMetrics returns and what it
leaves in the target are what the decoder gave for the content of the body,
whatever Close returns: a failing Close neither replaces a decode error nor
makes a decode that succeeded fail. -/
theorem getMetrics_ret_eq_decode {τ : Type} (dec : Decoder τ) (h : HTTPHandlerInterface)
    (target : τ) (status : Nat) (content : String) (closeErr : Option Err)
    (hget : h.Get = (⟨status, ⟨content, closeErr⟩⟩, none)) :
    (getMetrics dec h target).ret = (dec content target).2 ∧
    (getMetrics dec h target).target = (dec content target).1 :=
  getMetrics_ok dec h target ⟨status, ⟨content, closeErr⟩⟩ hget

/-- Witness of C6: the decode fails and so does Close; the decode error is
returned. -/
theorem getMetrics_ret_eq_decode_witness :
    (getMetrics decodeEmptyObject ⟨(⟨200, ⟨"<html>", some "already closed"⟩⟩, none)⟩ 7).ret =
      some "invalid character" :=
  (getMetrics_ret_eq_decode decodeEmptyObject ⟨(⟨200, ⟨"<html>", some "already closed"⟩⟩, none)⟩
    7 200 "<html>" (some "already closed") rfl).1

/-- C7, counterexample: the endpoint answers with status 500 and the body
`{}`; the decode succeeds and getMetrics returns the nil error. -/
theorem getMetrics_status_500_nil :
    (getMetrics decodeEmptyObject
      (HTTPHandler.toInterface (fun _ => .ok ⟨500, ⟨"\x7b\x7d", none⟩⟩) ⟨"http://localhost:9600/_node"⟩)
      7).ret = none := by
  decide

/-- C7, amended: getMetrics does not look at the status of the response. For
a response with status 500 it returns a non-nil error exactly when the decode
of the body fails, and the error is the decoder's. -/
theorem getMetrics_status_500 {τ : Type} (dec : Decoder τ) (net : Network) (h : HTTPHandler)
    (target : τ) (body : Body) (hnet : net h.Endpoint = .ok ⟨500, body⟩) :
    (getMetrics dec (h.toInterface net) target).ret = (dec body.content target).2 ∧
    ((getMetrics dec (h.toInterface net) target).ret ≠ none ↔
      (dec body.content target).2 ≠ none) := by
  have hget : (h.toInterface net).Get = (⟨500, body⟩, none) := by
    simp [HTTPHandler.toInterface, HTTPHandler.Get, hnet]
  have := (getMetrics_ok dec (h.toInterface net) target ⟨500, body⟩ hget).1
  rw [this]
  simp

/-- Witness of C7, amended: status 500 with a body that is not JSON. -/
theorem getMetrics_status_500_witness :
    (getMetrics decodeEmptyObject
      (HTTPHandler.toInterface (fun _ => .ok ⟨500, ⟨"Internal Server Error", none⟩⟩)
        ⟨"http://localhost:9600/_node"⟩) 7).ret ≠ none :=
  (getMetrics_status_500 decodeEmptyObject (fun _ => .ok ⟨500, ⟨"Internal Server Error", none⟩⟩)
    ⟨"http://localhost:9600/_node"⟩ 7 ⟨"Internal Server Error", none⟩ rfl).2.2 (by decide)

/-! ## Lemmas on lists -/

/-- Replacing one element of a list whose contribution grows by `x` makes the
contributions of the list grow by `x`. -/
theorem flatMap_set_perm {α β : Type} (f : α → List β) (l : List α) (i : Nat) (a b : α)
    (x : List β) (hi : l[i]? = some a) (hf : f b = f a ++ x) :
    ((l.set i b).flatMap f).Perm (l.flatMap f ++ x) := by
  induction l generalizing i with
  | nil => simp at hi
  | cons c l ih =>
    cases i with
    | zero =>
      simp at hi
      subst hi
      simp only [List.set_cons_zero, List.flatMap_cons, hf, List.append_assoc]
      exact List.Perm.append_left _ List.perm_append_comm
    | succ i =>
      simp only [List.getElem?_cons_succ] at hi
      simp only [List.set_cons_succ, List.flatMap_cons, List.append_assoc]
      exact List.Perm.append_left _ (ih i hi)

/-- Replacing one element by one with the same contribution. -/
theorem flatMap_set_same {α β : Type} (f : α → List β) (l : List α) (i : Nat) (a b : α)
    (hi : l[i]? = some a) (hf : f b = f a) :
    (l.set i b).flatMap f = l.flatMap f := by
  induction l generalizing i with
  | nil => simp at hi
  | cons c l ih =>
    cases i with
    | zero =>
      simp at hi
      subst hi
      simp [hf]
    | succ i =>
      simp only [List.getElem?_cons_succ] at hi
      simp [ih i hi]

/-- Replacing one element of a list whose weight grows by `d`. -/
theorem sum_map_set {α : Type} (f : α → Nat) (l : List α) (i : Nat) (a b : α) (d : Nat)
    (hi : l[i]? = some a) (hf : f b = f a + d) :
    ((l.set i b).map f).sum = (l.map f).sum + d := by
  induction l generalizing i with
  | nil => simp at hi
  | cons c l ih =>
    cases i with
    | zero =>
      simp at hi
      subst hi
      simp [hf]
      omega
    | succ i =>
      simp only [List.getElem?_cons_succ] at hi
      simp only [List.set_cons_succ, List.map_cons, List.sum_cons, ih i hi]
      omega

theorem domainSamples_append {σ : Type} (l m : List (Metric σ)) :
    domainSamples (l ++ m) = domainSamples l ++ domainSamples m := by
  induction l with
  | nil => rfl
  | cons a l ih => cases a <;> simp [domainSamples, ih]

theorem scrapeSamples_append {σ : Type} (l m : List (Metric σ)) :
    scrapeSamples (l ++ m) = scrapeSamples l ++ scrapeSamples m := by
  induction l with
  | nil => rfl
  | cons a l ih => cases a <;> simp [scrapeSamples, ih]

theorem domainSamples_map_domain {σ : Type} (l : List σ) :
    domainSamples (l.map Metric.domain) = l := by
  induction l with
  | nil => rfl
  | cons a l ih => simp [domainSamples, ih]

theorem scrapeSamples_map_domain {σ : Type} (l : List σ) :
    scrapeSamples (l.map Metric.domain) = [] := by
  induction l with
  | nil => rfl
  | cons a l ih => simp [scrapeSamples, ih]

theorem domainSamples_map_scrape {σ : Type} (l : List ScrapeSample) :
    domainSamples (l.map (Metric.scrapeDuration : ScrapeSample → Metric σ)) = [] := by
  induction l with
  | nil => rfl
  | cons a l ih => simp [domainSamples, ih]

theorem scrapeSamples_map_scrape {σ : Type} (l : List ScrapeSample) :
    scrapeSamples (l.map (Metric.scrapeDuration : ScrapeSample → Metric σ)) = l := by
  induction l with
  | nil => rfl
  | cons a l ih => simp [scrapeSamples, ih]

/-- The channel holds its domain samples and its scrape-duration samples,
and nothing else. -/
theorem perm_domain_scrape {σ : Type} (l : List (Metric σ)) :
    l.Perm ((domainSamples l).map Metric.domain ++
      (scrapeSamples l).map Metric.scrapeDuration) := by
  induction l with
  | nil => simp [domainSamples, scrapeSamples]
  | cons a l ih =>
    cases a with
    | domain x =>
      simp only [domainSamples, scrapeSamples, List.map_cons, List.cons_append]
      exact List.Perm.cons _ ih
    | scrapeDuration x =>
      simp only [domainSamples, scrapeSamples, List.map_cons]
      exact (List.Perm.cons _ ih).trans List.perm_middle.symm

/-! ## Lemmas on the summary vector -/

theorem SummaryVec.keys_Observe (v : SummaryVec) (lv : Labels) (d : Nat) :
    SummaryVec.keys (SummaryVec.Observe v lv d) =
      if lv ∈ SummaryVec.keys v then SummaryVec.keys v else SummaryVec.keys v ++ [lv] := by
  induction v with
  | nil => simp [SummaryVec.Observe, SummaryVec.keys]
  | cons e v ih =>
    obtain ⟨k, s⟩ := e
    simp only [SummaryVec.keys] at ih
    by_cases hk : k = lv
    · simp [SummaryVec.Observe, SummaryVec.keys, hk]
    · have hk2 : ¬ lv = k := fun h => hk h.symm
      simp only [SummaryVec.Observe, SummaryVec.keys, hk, if_false, List.map_cons,
        List.mem_cons, hk2, false_or, ih]
      split <;> simp

theorem SummaryVec.observations_Observe (v : SummaryVec) (lv : Labels) (d : Nat)
    (lw : Labels) :
    SummaryVec.observations (SummaryVec.Observe v lv d) lw =
      SummaryVec.observations v lw + if lw = lv then 1 else 0 := by
  induction v with
  | nil =>
    by_cases h : lw = lv
    · simp [SummaryVec.Observe, SummaryVec.observations, List.lookup, h, Summary.Observe]
    · have : (lw == lv) = false := by simpa using h
      simp [SummaryVec.Observe, SummaryVec.observations, List.lookup, h, this]
  | cons e v ih =>
    obtain ⟨k, s⟩ := e
    simp only [SummaryVec.observations] at ih
    by_cases hk : k = lv
    · subst hk
      by_cases h : lw = k
      · simp [SummaryVec.Observe, SummaryVec.observations, List.lookup, h, Summary.Observe]
      · have : (lw == k) = false := by simpa using h
        simp [SummaryVec.Observe, SummaryVec.observations, List.lookup, h, this]
    · by_cases h : lw = k
      · subst h
        have h2 : ¬ lw = lv := hk
        simp [SummaryVec.Observe, SummaryVec.observations, List.lookup, hk, h2]
      · have : (lw == k) = false := by simpa using h
        simp only [SummaryVec.Observe, SummaryVec.observations, hk, if_false, List.lookup,
          this, ih]

theorem SummaryVec.keys_Collect (v : SummaryVec) :
    (SummaryVec.Collect v).map ScrapeSample.labels = SummaryVec.keys v := by
  simp [SummaryVec.Collect, SummaryVec.keys, ScrapeSample.labels]

/-! ## The invariant -/

/-- Replacing one element by one with the same image. -/
theorem map_set_same {α β : Type} (g : α → β) (l : List α) (i : Nat) (a b : α)
    (hi : l[i]? = some a) (hg : g b = g a) : (l.set i b).map g = l.map g := by
  induction l generalizing i with
  | nil => simp at hi
  | cons c l ih =>
    cases i with
    | zero =>
      simp at hi
      subst hi
      simp [hg]
    | succ i =>
      simp only [List.getElem?_cons_succ] at hi
      simp only [List.set_cons_succ, List.map_cons, ih i hi]

/-- Moving a goroutine on changes neither its name nor its collector. -/
theorem entries_set {σ : Type} (l : List (Worker σ)) (i : Nat) (w : Worker σ) (p : UnitPc)
    (hi : l[i]? = some w) :
    (l.set i { w with pc := p }).map (fun w => (w.name, w.c)) =
      l.map (fun w => (w.name, w.c)) :=
  map_set_same _ l i w _ hi rfl

theorem Inv.init {σ : Type} (coll : LogstashCollector σ) (v : SummaryVec) :
    Inv coll v (State.init coll v) := by
  have hnil : ∀ {β : Type} (f : Worker σ → List β), (∀ w : Worker σ, w.pc = .idle → f w = []) →
      (coll.collectors.map fun e => (⟨e.1, e.2, .idle⟩ : Worker σ)).flatMap f = [] := by
    intro β f hf
    rw [List.flatMap_eq_nil_iff]
    intro w hw
    simp only [List.mem_map] at hw
    obtain ⟨e, _, rfl⟩ := hw
    exact hf _ rfl
  have hfin := hnil Worker.finished (fun w hw => by simp [Worker.finished, hw])
  have hsent := hnil Worker.sent (fun w hw => by simp [Worker.sent, hw])
  have hcalled := hnil Worker.called (fun w hw => by simp [Worker.called, hw])
  have hrec := hnil Worker.recorded (fun w hw => by simp [Worker.recorded, hw])
  refine
    { entries := ?_, notLaunched := ?_, launchedBefore := ?_, allLaunched := ?_, counter := ?_, joined := ?_,
      domain := ?_, scrape := ?_, invoked := ?_, keysNodup := ?_, keysMem := ?_,
      observed := ?_ }
  · simp only [State.init, List.map_map]
    exact (List.map_congr_left (fun e _ => rfl)).trans (List.map_id _)
  · intro k i w _ _ hw
    simp only [State.init, List.getElem?_map] at hw
    cases he : coll.collectors[i]? with
    | none => simp [he] at hw
    | some e =>
      simp [he] at hw
      subst hw
      rfl
  · intro k i w hk hi _
    simp only [State.init, MainPc.launching.injEq] at hk
    omega
  · intro w _ _
    exact ⟨0, rfl⟩
  · simp only [State.init, hfin]
    simp
  · intro h
    simp [State.init] at h
  · simp only [State.init, hsent]
    exact List.Perm.refl _
  · simp [State.init, scrapeSamples]
  · simp only [State.init, hcalled]
    exact List.Perm.refl _
  · intro h
    exact h
  · intro lv
    simp only [State.init, hrec]
    simp
  · intro lv
    simp only [State.init, hrec]
    simp

/-- When every goroutine has called `wg.Done()`, every goroutine is done. -/
theorem all_done_of_length {σ : Type} (l : List (Worker σ))
    (h : (l.flatMap Worker.finished).length = l.length) : ∀ w ∈ l, w.pc = .done := by
  have hle : ∀ m : List (Worker σ), (m.flatMap Worker.finished).length ≤ m.length := by
    intro m
    induction m with
    | nil => simp
    | cons a m ih =>
      simp only [List.flatMap_cons, List.length_append, List.length_cons]
      have : (Worker.finished a).length ≤ 1 := by
        unfold Worker.finished
        split <;> simp
      omega
  induction l with
  | nil => simp
  | cons a l ih =>
    simp only [List.flatMap_cons, List.length_append, List.length_cons] at h
    have h1 : (Worker.finished a).length ≤ 1 := by
      unfold Worker.finished
      split <;> simp
    have h2 := hle l
    intro w hw
    rcases List.mem_cons.mp hw with rfl | hw
    · have h3 : (Worker.finished w).length = 1 := by omega
      unfold Worker.finished at h3
      split at h3
      · assumption
      · simp at h3
    · exact ih (by omega) w hw

/-- A step of the calling goroutine keeps the invariant. -/
theorem Inv.stepMain {σ : Type} {coll : LogstashCollector σ} {v : SummaryVec} {s t : State σ}
    (hs : Inv coll v s) (h : stepMain s = some t) : Inv coll v t := by
  unfold Logstash.stepMain at h
  split at h
  · rename_i k hm
    split at h
    · rename_i w hw
      simp only [Option.some.injEq] at h
      subst h
      have hidle : w.pc = .idle := hs.notLaunched k k w hm (Nat.le_refl k) hw
      have hsame : ∀ {β : Type} (f : Worker σ → List β),
          (∀ u : Worker σ, u.pc = .idle ∨ u.pc = .launched → f u = []) →
          (s.workers.set k { w with pc := .launched }).flatMap f = s.workers.flatMap f := by
        intro β f hf
        apply flatMap_set_same f s.workers k w _ hw
        rw [hf _ (Or.inr rfl), hf _ (Or.inl hidle)]
      have hfin := hsame Worker.finished (fun u hu => by
        rcases hu with hu | hu <;> simp [Worker.finished, hu])
      have hsent := hsame Worker.sent (fun u hu => by
        rcases hu with hu | hu <;> simp [Worker.sent, hu])
      have hcalled := hsame Worker.called (fun u hu => by
        rcases hu with hu | hu <;> simp [Worker.called, hu])
      have hrec := hsame Worker.recorded (fun u hu => by
        rcases hu with hu | hu <;> simp [Worker.recorded, hu])
      refine
        { entries := ?_, notLaunched := ?_, launchedBefore := ?_, allLaunched := ?_, counter := ?_, joined := ?_,
          domain := ?_, scrape := ?_, invoked := ?_, keysNodup := ?_, keysMem := ?_,
          observed := ?_ }
      · exact (entries_set _ _ _ _ hw).trans hs.entries
      · intro k2 i u hk hi hu
        simp only [MainPc.launching.injEq] at hk
        subst hk
        simp only [List.getElem?_set] at hu
        have hne : ¬ k = i := by omega
        simp only [hne, if_false] at hu
        exact hs.notLaunched k i u hm (by omega) hu
      · intro k2 i u hk hi hu
        simp only [MainPc.launching.injEq] at hk
        subst hk
        simp only [List.getElem?_set] at hu
        by_cases hki : k = i
        · simp only [hki, if_true] at hu
          split at hu
          · simp only [Option.some.injEq] at hu
            subst hu
            simp
          · simp at hu
        · simp only [hki, if_false] at hu
          exact hs.launchedBefore k i u hm (by omega) hu
      · intro u _ _
        exact ⟨k + 1, rfl⟩
      · simp only [hfin, List.length_set]
        exact hs.counter
      · intro h
        simp at h
      · simp only [hsent]
        exact hs.domain
      · simp only [reduceCtorEq, if_false]
        have := hs.scrape
        simp only [hm, reduceCtorEq, if_false] at this
        exact this
      · simp only [hcalled]
        exact hs.invoked
      · exact hs.keysNodup
      · intro lv
        simp only [hrec]
        exact hs.keysMem lv
      · intro lv
        simp only [hrec]
        exact hs.observed lv
    · rename_i hw
      simp only [Option.some.injEq] at h
      subst h
      have hlen : s.workers.length ≤ k := by
        rcases Nat.lt_or_ge k s.workers.length with hlt | hge
        · have := List.getElem?_eq_getElem hlt
          rw [hw] at this
          simp at this
        · exact hge
      refine
        { entries := hs.entries, notLaunched := ?_, launchedBefore := ?_, allLaunched := ?_,
          counter := hs.counter, joined := ?_,
          domain := hs.domain, scrape := ?_, invoked := hs.invoked, keysNodup := hs.keysNodup,
          keysMem := hs.keysMem, observed := hs.observed }
      · intro k2 i u hk
        simp at hk
      · intro k2 i u hk
        simp at hk
      · intro u hu hidle
        obtain ⟨i, hi, hget⟩ := List.getElem_of_mem hu
        have hi2 : i < s.workers.length := hi
        have hget2 : s.workers[i]? = some u := by
          rw [List.getElem?_eq_getElem hi, hget]
        exact absurd hidle (hs.launchedBefore k i u hm (by omega) hget2)
      · intro h
        simp at h
      · have := hs.scrape
        simp only [hm, reduceCtorEq, if_false] at this
        simp only [reduceCtorEq, if_false]
        exact this
  · rename_i hm
    split at h
    · rename_i hwg
      simp only [Option.some.injEq] at h
      subst h
      have hnone : ∀ w ∈ s.workers, w.pc = .idle → False := by
        intro w hw hidle
        obtain ⟨k, hk⟩ := hs.allLaunched w hw hidle
        rw [hm] at hk
        simp at hk
      refine
        { entries := hs.entries, notLaunched := ?_, launchedBefore := ?_, allLaunched := ?_,
          counter := hs.counter, joined := ?_,
          domain := hs.domain, scrape := ?_, invoked := hs.invoked, keysNodup := hs.keysNodup,
          keysMem := hs.keysMem, observed := hs.observed }
      · intro k2 i u hk
        simp at hk
      · intro k2 i u hk
        simp at hk
      · intro u hu hidle
        exact absurd hidle (fun h => hnone u hu h)
      · intro _
        have hc := hs.counter
        rw [hwg] at hc
        have hc2 : (s.workers.flatMap Worker.finished).length = s.workers.length := by
          omega
        exact all_done_of_length s.workers hc2
      · have := hs.scrape
        simp only [hm, reduceCtorEq, if_false] at this
        simp only [reduceCtorEq, if_false]
        exact this
    · simp at h
  · rename_i hm
    simp only [Option.some.injEq] at h
    subst h
    have hnone : ∀ w ∈ s.workers, w.pc = .idle → False := by
      intro w hw hidle
      obtain ⟨k, hk⟩ := hs.allLaunched w hw hidle
      rw [hm] at hk
      simp at hk
    refine
      { entries := hs.entries, notLaunched := ?_, launchedBefore := ?_, allLaunched := ?_,
        counter := hs.counter, joined := ?_,
        domain := ?_, scrape := ?_, invoked := hs.invoked, keysNodup := hs.keysNodup,
        keysMem := hs.keysMem, observed := hs.observed }
    · intro k2 i u hk
      simp at hk
    · intro k2 i u hk
      simp at hk
    · intro u hu hidle
      exact absurd hidle (fun h => hnone u hu h)
    · intro _
      exact hs.joined (Or.inl hm)
    · simp only [domainSamples_append, domainSamples_map_scrape, List.append_nil]
      exact hs.domain
    · have := hs.scrape
      simp only [hm, reduceCtorEq, if_false] at this
      simp only [scrapeSamples_append, scrapeSamples_map_scrape, this, List.nil_append, if_true]
  · simp at h

/-- What a step of a launched goroutine keeps, whatever else it does. -/
theorem Inv.frame {σ : Type} {coll : LogstashCollector σ} {v : SummaryVec} {s : State σ}
    (hs : Inv coll v s) (i : Nat) (w : Worker σ) (p : UnitPc)
    (hw : s.workers[i]? = some w) (hidle : w.pc ≠ .idle) (hdone : w.pc ≠ .done)
    (hp : p ≠ .idle) :
    (s.workers.set i { w with pc := p }).map (fun w => (w.name, w.c)) = coll.collectors ∧
    (∀ k j u, s.main = .launching k → k ≤ j →
      (s.workers.set i { w with pc := p })[j]? = some u → u.pc = .idle) ∧
    (∀ k j u, s.main = .launching k → j < k →
      (s.workers.set i { w with pc := p })[j]? = some u → u.pc ≠ .idle) ∧
    (∀ u ∈ s.workers.set i { w with pc := p }, u.pc = .idle → ∃ k, s.main = .launching k) ∧
    s.main ≠ .aggregating ∧ s.main ≠ .returned := by
  have hmem : w ∈ s.workers := List.getElem?_mem hw
  refine ⟨(entries_set _ _ _ _ hw).trans hs.entries, ?_, ?_, ?_, ?_, ?_⟩
  · intro k j u hk hj hu
    simp only [List.getElem?_set] at hu
    by_cases hij : i = j
    · subst hij
      exact absurd (hs.notLaunched k i w hk hj hw) hidle
    · simp only [hij, if_false] at hu
      exact hs.notLaunched k j u hk hj hu
  · intro k j u hk hj hu
    simp only [List.getElem?_set] at hu
    by_cases hij : i = j
    · simp only [hij, if_true] at hu
      split at hu
      · simp only [Option.some.injEq] at hu
        subst hu
        exact hp
      · simp at hu
    · simp only [hij, if_false] at hu
      exact hs.launchedBefore k j u hk hj hu
  · intro u hu hui
    rcases List.mem_or_eq_of_mem_set hu with hu | hu
    · exact hs.allLaunched u hu hui
    · subst hu
      exact absurd hui hp
  · intro hm
    exact hdone (hs.joined (Or.inl hm) w hmem)
  · intro hm
    exact hdone (hs.joined (Or.inr hm) w hmem)

/-- A step of a launched goroutine keeps the invariant. -/
theorem Inv.stepUnit {σ : Type} {coll : LogstashCollector σ} {v : SummaryVec} {s t : State σ}
    (i : Nat) (hs : Inv coll v s) (h : stepUnit i s = some t) : Inv coll v t := by
  unfold Logstash.stepUnit at h
  split at h
  · simp at h
  · rename_i w hw
    split at h
    · simp at h
    · -- the goroutine enters `c.Collect(ch)`
      rename_i hpc
      simp only [Option.some.injEq] at h
      subst h
      obtain ⟨h1, h2, h3, h4, h5, h6⟩ :=
        hs.frame i w (.sending 0) hw (by simp [hpc]) (by simp [hpc]) (by simp)
      have hfin := flatMap_set_same Worker.finished s.workers i w { w with pc := .sending 0 } hw
        (by simp [Worker.finished, hpc])
      have hsent := flatMap_set_same Worker.sent s.workers i w { w with pc := .sending 0 } hw
        (by simp [Worker.sent, hpc])
      have hrec := flatMap_set_same Worker.recorded s.workers i w { w with pc := .sending 0 } hw
        (by simp [Worker.recorded, hpc])
      have hcalled := flatMap_set_perm Worker.called s.workers i w { w with pc := .sending 0 }
        [w.name] hw (by simp [Worker.called, hpc])
      refine
        { entries := h1, notLaunched := h2, launchedBefore := h3, allLaunched := h4,
          counter := ?_, joined := ?_, domain := ?_, scrape := ?_, invoked := ?_,
          keysNodup := hs.keysNodup, keysMem := ?_, observed := ?_ }
      · simp only [hfin, List.length_set]
        exact hs.counter
      · intro hm
        rcases hm with hm | hm
        · exact absurd hm h5
        · exact absurd hm h6
      · simp only [hsent]
        exact hs.domain
      · exact hs.scrape
      · exact (List.Perm.append_right _ hs.invoked).trans hcalled.symm
      · intro lv
        simp only [hrec]
        exact hs.keysMem lv
      · intro lv
        simp only [hrec]
        exact hs.observed lv
    · rename_i j hpc
      split at h
      · -- it sends one sample
        rename_i x hx
        simp only [Option.some.injEq] at h
        subst h
        obtain ⟨h1, h2, h3, h4, h5, h6⟩ :=
          hs.frame i w (.sending (j + 1)) hw (by simp [hpc]) (by simp [hpc]) (by simp)
        have hfin := flatMap_set_same Worker.finished s.workers i w
          { w with pc := .sending (j + 1) } hw (by simp [Worker.finished, hpc])
        have hcalled := flatMap_set_same Worker.called s.workers i w
          { w with pc := .sending (j + 1) } hw (by simp [Worker.called, hpc])
        have hrec := flatMap_set_same Worker.recorded s.workers i w
          { w with pc := .sending (j + 1) } hw (by simp [Worker.recorded, hpc])
        have hsent := flatMap_set_perm Worker.sent s.workers i w
          { w with pc := .sending (j + 1) } [x] hw
          (by simp [Worker.sent, hpc, List.take_succ, hx])
        refine
          { entries := h1, notLaunched := h2, launchedBefore := h3, allLaunched := h4,
            counter := ?_, joined := ?_, domain := ?_, scrape := ?_, invoked := ?_,
            keysNodup := hs.keysNodup, keysMem := ?_, observed := ?_ }
        · simp only [hfin, List.length_set]
          exact hs.counter
        · intro hm
          rcases hm with hm | hm
          · exact absurd hm h5
          · exact absurd hm h6
        · simp only [domainSamples_append, domainSamples, List.append_nil]
          exact (List.Perm.append_right _ hs.domain).trans hsent.symm
        · have := hs.scrape
          simp only [scrapeSamples_append, scrapeSamples, List.append_nil]
          exact this
        · simp only [hcalled]
          exact hs.invoked
        · intro lv
          simp only [hrec]
          exact hs.keysMem lv
        · intro lv
          simp only [hrec]
          exact hs.observed lv
      · -- it returns from `c.Collect(ch)` and records the observation
        rename_i hx
        simp only [Option.some.injEq] at h
        subst h
        obtain ⟨h1, h2, h3, h4, h5, h6⟩ :=
          hs.frame i w .observed hw (by simp [hpc]) (by simp [hpc]) (by simp)
        have hlen : w.c.emitted.length ≤ j := by
          rcases Nat.lt_or_ge j w.c.emitted.length with hlt | hge
          · have := List.getElem?_eq_getElem hlt
            rw [hx] at this
            simp at this
          · exact hge
        have hfin := flatMap_set_same Worker.finished s.workers i w
          { w with pc := .observed } hw (by simp [Worker.finished, hpc])
        have hcalled := flatMap_set_same Worker.called s.workers i w
          { w with pc := .observed } hw (by simp [Worker.called, hpc])
        have hsent := flatMap_set_same Worker.sent s.workers i w
          { w with pc := .observed } hw
          (by simp [Worker.sent, hpc, List.take_of_length_le hlen])
        have hrec := flatMap_set_perm Worker.recorded s.workers i w
          { w with pc := .observed } [w.labels] hw
          (by simp [Worker.recorded, hpc, Worker.labels])
        refine
          { entries := h1, notLaunched := h2, launchedBefore := h3, allLaunched := h4,
            counter := ?_, joined := ?_, domain := ?_, scrape := ?_, invoked := ?_,
            keysNodup := ?_, keysMem := ?_, observed := ?_ }
        · simp only [hfin, List.length_set]
          exact hs.counter
        · intro hm
          rcases hm with hm | hm
          · exact absurd hm h5
          · exact absurd hm h6
        · simp only [hsent]
          exact hs.domain
        · have := hs.scrape
          simp only [h6, if_false] at this ⊢
          exact this
        · simp only [hcalled]
          exact hs.invoked
        · intro hv
          have hn := hs.keysNodup hv
          simp only [SummaryVec.keys_Observe]
          split
          · exact hn
          · rename_i hnot
            refine List.Nodup.append hn (List.nodup_singleton _) ?_
            intro a ha hb
            rw [List.mem_singleton] at hb
            exact hnot (hb ▸ ha)
        · intro lv
          simp only [SummaryVec.keys_Observe, hrec.mem_iff]
          have := hs.keysMem lv
          split
          · rename_i hin
            simp only [List.mem_append, List.mem_singleton]
            constructor
            · intro hlv
              rcases this.mp hlv with h | h
              · exact Or.inl h
              · exact Or.inr (Or.inl h)
            · intro hlv
              rcases hlv with h | h | h
              · exact this.mpr (Or.inl h)
              · exact this.mpr (Or.inr h)
              · rw [h]
                exact hin
          · simp only [List.mem_append, List.mem_singleton]
            rw [this]
            tauto
        · intro lv
          have hcount := hrec.countP_eq (fun x => decide (x = lv))
          rw [List.countP_append] at hcount
          simp only [SummaryVec.observations_Observe, hs.observed lv]
          rw [hcount]
          have : List.countP (fun x => decide (x = lv)) [w.labels] =
              if lv = (w.name, resultOf w.c.err) then 1 else 0 := by
            by_cases hlv : lv = (w.name, resultOf w.c.err)
            · simp [hlv, Worker.labels, List.countP_cons]
            · have : ¬ w.labels = lv := fun h => hlv (h.symm.trans rfl)
              simp [hlv, List.countP_cons, this]
          rw [this]
          omega
    · -- it calls `wg.Done()`
      rename_i hpc
      split at h
      · simp at h
      · rename_i hwg
        simp only [Option.some.injEq] at h
        subst h
        obtain ⟨h1, h2, h3, h4, h5, h6⟩ :=
          hs.frame i w .done hw (by simp [hpc]) (by simp [hpc]) (by simp)
        have hcalled := flatMap_set_same Worker.called s.workers i w
          { w with pc := .done } hw (by simp [Worker.called, hpc])
        have hsent := flatMap_set_same Worker.sent s.workers i w
          { w with pc := .done } hw (by simp [Worker.sent, hpc])
        have hrec := flatMap_set_same Worker.recorded s.workers i w
          { w with pc := .done } hw (by simp [Worker.recorded, hpc, Worker.labels])
        have hfin := flatMap_set_perm Worker.finished s.workers i w
          { w with pc := .done } [()] hw (by simp [Worker.finished, hpc])
        refine
          { entries := h1, notLaunched := h2, launchedBefore := h3, allLaunched := h4,
            counter := ?_, joined := ?_, domain := ?_, scrape := ?_, invoked := ?_,
            keysNodup := hs.keysNodup, keysMem := ?_, observed := ?_ }
        · have hc := hs.counter
          have hl := hfin.length_eq
          simp only [List.length_append, List.length_singleton] at hl
          simp only [hl, List.length_set]
          push_cast
          omega
        · intro hm
          rcases hm with hm | hm
          · exact absurd hm h5
          · exact absurd hm h6
        · simp only [hsent]
          exact hs.domain
        · exact hs.scrape
        · simp only [hcalled]
          exact hs.invoked
        · intro lv
          simp only [hrec]
          exact hs.keysMem lv
        · intro lv
          simp only [hrec]
          exact hs.observed lv
    · simp at h

/-- Every step keeps the invariant. -/
theorem Inv.step {σ : Type} {coll : LogstashCollector σ} {v : SummaryVec} {s t : State σ}
    (a : Action) (hs : Inv coll v s) (h : step a s = some t) : Inv coll v t := by
  cases a with
  | main => exact hs.stepMain h
  | unit i => exact hs.stepUnit i h

/-- Every schedule keeps the invariant. -/
theorem Inv.exec {σ : Type} {coll : LogstashCollector σ} {v : SummaryVec}
    (sched : List Action) {s t : State σ} (hs : Inv coll v s) (h : exec sched s = some t) :
    Inv coll v t := by
  induction sched generalizing s with
  | nil =>
    simp only [Logstash.exec, Option.some.injEq] at h
    exact h ▸ hs
  | cons a rest ih =>
    simp only [Logstash.exec] at h
    cases hstep : Logstash.step a s with
    | none => simp [hstep] at h
    | some u =>
      simp only [hstep] at h
      exact ih (hs.step a hstep) h

/-- The invariant holds in every state a call reaches. -/
theorem Inv.reach {σ : Type} (coll : LogstashCollector σ) (v : SummaryVec)
    (sched : List Action) (s : State σ)
    (h : Logstash.exec sched (State.init coll v) = some s) : Inv coll v s :=
  (Inv.init coll v).exec sched h

theorem exec_append {σ : Type} (l m : List Action) (s : State σ) :
    exec (l ++ m) s = (exec l s).bind (exec m) := by
  induction l generalizing s with
  | nil => simp [exec]
  | cons a l ih =>
    simp only [List.cons_append, exec]
    cases step a s with
    | none => simp
    | some t => simp [ih]

/-! ## Every step counts -/

/-- A step of the calling goroutine is one step of progress. -/
theorem progress_stepMain {σ : Type} {coll : LogstashCollector σ} {v : SummaryVec}
    {s t : State σ} (hs : Inv coll v s) (h : stepMain s = some t) :
    t.progress = s.progress + 1 ∧ t.bound = s.bound := by
  unfold Logstash.stepMain at h
  split at h
  · rename_i k hm
    split at h
    · rename_i w hw
      simp only [Option.some.injEq] at h
      subst h
      have hidle : w.pc = .idle := hs.notLaunched k k w hm (Nat.le_refl k) hw
      have hk : k < s.workers.length := by
        rcases Nat.lt_or_ge k s.workers.length with hlt | hge
        · exact hlt
        · rw [List.getElem?_eq_none hge] at hw
          simp at hw
      have h1 := map_set_same Worker.progress s.workers k w { w with pc := .launched } hw
        (by simp [Worker.progress, hidle])
      have h2 := map_set_same (fun w : Worker σ => w.c.emitted.length + 4) s.workers k w
        { w with pc := .launched } hw rfl
      simp only [State.progress, State.bound, h1, h2, hm, MainPc.progress, List.length_set]
      constructor <;> first | omega | trivial
    · rename_i hw
      simp only [Option.some.injEq] at h
      subst h
      have hlen : s.workers.length ≤ k := by
        rcases Nat.lt_or_ge k s.workers.length with hlt | hge
        · have := List.getElem?_eq_getElem hlt
          rw [hw] at this
          simp at this
        · exact hge
      simp only [State.progress, State.bound, hm, MainPc.progress]
      constructor <;> first | omega | trivial
  · rename_i hm
    split at h
    · simp only [Option.some.injEq] at h
      subst h
      simp only [State.progress, State.bound, hm, MainPc.progress]
      constructor <;> first | omega | trivial
    · simp at h
  · rename_i hm
    simp only [Option.some.injEq] at h
    subst h
    simp only [State.progress, State.bound, hm, MainPc.progress]
    constructor <;> first | omega | trivial
  · simp at h

/-- A step of a launched goroutine is one step of progress. -/
theorem progress_stepUnit {σ : Type} {s t : State σ} (i : Nat) (h : stepUnit i s = some t) :
    t.progress = s.progress + 1 ∧ t.bound = s.bound := by
  unfold Logstash.stepUnit at h
  split at h
  · simp at h
  · rename_i w hw
    have hb : ∀ p : UnitPc, ((s.workers.set i { w with pc := p }).map
        fun w : Worker σ => w.c.emitted.length + 4) =
        s.workers.map fun w : Worker σ => w.c.emitted.length + 4 :=
      fun p => map_set_same _ s.workers i w _ hw rfl
    split at h
    · simp at h
    · rename_i hpc
      simp only [Option.some.injEq] at h
      subst h
      have h1 := sum_map_set Worker.progress s.workers i w { w with pc := .sending 0 } 1 hw
        (by simp [Worker.progress, hpc])
      simp only [State.progress, State.bound, h1, hb, List.length_set]
      constructor <;> first | omega | trivial
    · rename_i j hpc
      split at h
      · rename_i x hx
        simp only [Option.some.injEq] at h
        subst h
        have hj : j < w.c.emitted.length := by
          rcases Nat.lt_or_ge j w.c.emitted.length with hlt | hge
          · exact hlt
          · rw [List.getElem?_eq_none hge] at hx
            simp at hx
        have h1 := sum_map_set Worker.progress s.workers i w { w with pc := .sending (j + 1) } 1
          hw (by simp only [Worker.progress, hpc]; omega)
        simp only [State.progress, State.bound, h1, hb, List.length_set]
        constructor <;> first | omega | trivial
      · rename_i hx
        simp only [Option.some.injEq] at h
        subst h
        have hlen : w.c.emitted.length ≤ j := by
          rcases Nat.lt_or_ge j w.c.emitted.length with hlt | hge
          · have := List.getElem?_eq_getElem hlt
            rw [hx] at this
            simp at this
          · exact hge
        have h1 := sum_map_set Worker.progress s.workers i w { w with pc := .observed } 1
          hw (by simp only [Worker.progress, hpc]; omega)
        simp only [State.progress, State.bound, h1, hb, List.length_set]
        constructor <;> first | omega | trivial
    · rename_i hpc
      split at h
      · simp at h
      · simp only [Option.some.injEq] at h
        subst h
        have h1 := sum_map_set Worker.progress s.workers i w { w with pc := .done } 1
          hw (by simp only [Worker.progress, hpc])
        simp only [State.progress, State.bound, h1, hb, List.length_set]
        constructor <;> first | omega | trivial
    · simp at h

/-- A schedule of `n` steps is `n` steps of progress. -/
theorem progress_exec {σ : Type} {coll : LogstashCollector σ} {v : SummaryVec}
    (sched : List Action) {s t : State σ} (hs : Inv coll v s) (h : exec sched s = some t) :
    t.progress = s.progress + sched.length ∧ t.bound = s.bound := by
  induction sched generalizing s with
  | nil =>
    simp only [Logstash.exec, Option.some.injEq] at h
    subst h
    simp
  | cons a rest ih =>
    simp only [Logstash.exec] at h
    cases hstep : Logstash.step a s with
    | none => simp [hstep] at h
    | some u =>
      simp only [hstep] at h
      have h1 : u.progress = s.progress + 1 ∧ u.bound = s.bound := by
        cases a with
        | main => exact progress_stepMain hs hstep
        | unit i => exact progress_stepUnit i hstep
      have h2 := ih (hs.step a hstep) h
      simp only [List.length_cons]
      omega

/-- No state is further than the bound. -/
theorem progress_le_bound {σ : Type} (s : State σ) : s.progress ≤ s.bound := by
  have hm : s.main.progress s.workers.length ≤ s.workers.length + 3 := by
    unfold MainPc.progress
    split <;> omega
  have hw : ∀ l : List (Worker σ),
      (l.map Worker.progress).sum + l.length ≤
        (l.map fun w : Worker σ => w.c.emitted.length + 4).sum := by
    intro l
    induction l with
    | nil => simp
    | cons a l ih =>
      simp only [List.map_cons, List.sum_cons, List.length_cons]
      have : a.progress ≤ a.c.emitted.length + 3 := by
        unfold Worker.progress
        split <;> omega
      omega
  have := hw s.workers
  simp only [State.progress, State.bound]
  omega

theorem progress_init {σ : Type} (coll : LogstashCollector σ) (v : SummaryVec) :
    (State.init coll v).progress = 0 ∧ (State.init coll v).bound = stepBound coll := by
  constructor
  · simp only [State.progress, State.init, MainPc.progress, List.map_map]
    have : ∀ l : List (String × Collector σ),
        (l.map (Worker.progress ∘ fun e => (⟨e.1, e.2, .idle⟩ : Worker σ))).sum = 0 := by
      intro l
      induction l with
      | nil => rfl
      | cons a l ih => simp [Worker.progress, ih]
    simp [this]
  · simp only [State.bound, State.init, stepBound, List.map_map]
    rfl

/-! ## The call always goes on, until it returns -/

/-- As long as some goroutine has not called `wg.Done()`, one is not done. -/
theorem exists_not_done {σ : Type} (l : List (Worker σ))
    (h : (l.flatMap Worker.finished).length < l.length) : ∃ w ∈ l, w.pc ≠ .done := by
  induction l with
  | nil => simp at h
  | cons a l ih =>
    by_cases ha : a.pc = .done
    · have : (Worker.finished a).length = 1 := by simp [Worker.finished, ha]
      simp only [List.flatMap_cons, List.length_append, List.length_cons, this] at h
      obtain ⟨w, hw, hne⟩ := ih (by omega)
      exact ⟨w, List.mem_cons_of_mem _ hw, hne⟩
    · exact ⟨a, List.mem_cons_self _ _, ha⟩

theorem finished_length_le {σ : Type} (l : List (Worker σ)) :
    (l.flatMap Worker.finished).length ≤ l.length := by
  induction l with
  | nil => simp
  | cons a l ih =>
    simp only [List.flatMap_cons, List.length_append, List.length_cons]
    have : (Worker.finished a).length ≤ 1 := by
      unfold Worker.finished
      split <;> simp
    omega

/-- In a reachable state some goroutine can move, unless the call has
returned: no deadlock and no panic of the wait group. -/
theorem exists_step {σ : Type} {coll : LogstashCollector σ} {v : SummaryVec} {s : State σ}
    (hs : Inv coll v s) (hm : s.main ≠ .returned) : ∃ a t, step a s = some t := by
  cases hmain : s.main with
  | launching k =>
    refine ⟨.main, ?_⟩
    simp only [step, stepMain, hmain]
    split <;> exact ⟨_, rfl⟩
  | aggregating =>
    refine ⟨.main, ?_⟩
    simp only [step, stepMain, hmain]
    exact ⟨_, rfl⟩
  | returned => exact absurd hmain hm
  | waiting =>
    by_cases hwg : s.wg = 0
    · refine ⟨.main, ?_⟩
      simp only [step, stepMain, hmain, hwg, if_true]
      exact ⟨_, rfl⟩
    · have hc := hs.counter
      have hle := finished_length_le s.workers
      have hpos : 0 < s.wg := by omega
      obtain ⟨w, hw, hne⟩ := exists_not_done s.workers (by omega)
      obtain ⟨i, hi⟩ := List.mem_iff_getElem?.mp hw
      have hidle : w.pc ≠ .idle := by
        intro h
        obtain ⟨k, hk⟩ := hs.allLaunched w hw h
        rw [hmain] at hk
        simp at hk
      refine ⟨.unit i, ?_⟩
      simp only [step, stepUnit, hi]
      cases hpc : w.pc with
      | idle => exact absurd hpc hidle
      | done => exact absurd hpc hne
      | launched => exact ⟨_, rfl⟩
      | sending j =>
        simp only
        split <;> exact ⟨_, rfl⟩
      | observed =>
        have : ¬ s.wg ≤ 0 := by omega
        simp only [this, if_false]
        exact ⟨_, rfl⟩

/-- From every reachable state the call can be run to its return. -/
theorem exists_complete {σ : Type} {coll : LogstashCollector σ} {v : SummaryVec}
    (n : Nat) (s : State σ) (hs : Inv coll v s) (hn : s.bound - s.progress ≤ n) :
    ∃ rest t, exec rest s = some t ∧ t.main = .returned := by
  induction n generalizing s with
  | zero =>
    by_cases hm : s.main = .returned
    · exact ⟨[], s, rfl, hm⟩
    · obtain ⟨a, t, ht⟩ := exists_step hs hm
      have h1 := progress_exec [a] hs (show exec [a] s = some t by simp [exec, ht])
      have h2 := progress_le_bound t
      simp only [List.length_singleton] at h1
      omega
  | succ n ih =>
    by_cases hm : s.main = .returned
    · exact ⟨[], s, rfl, hm⟩
    · obtain ⟨a, t, ht⟩ := exists_step hs hm
      have h1 := progress_exec [a] hs (show exec [a] s = some t by simp [exec, ht])
      simp only [List.length_singleton] at h1
      obtain ⟨rest, u, hu, hret⟩ := ih t (hs.step a ht) (by omega)
      exact ⟨a :: rest, u, by simp [exec, ht, hu], hret⟩

/-! ## The state when every goroutine is done -/

/-- When all goroutines are done, they are the entries of the map, done. -/
theorem workers_of_done {σ : Type} (l : List (Worker σ)) (h : ∀ w ∈ l, w.pc = .done) :
    l = (l.map fun w => (w.name, w.c)).map fun e => (⟨e.1, e.2, .done⟩ : Worker σ) := by
  induction l with
  | nil => rfl
  | cons a l ih =>
    have ha := h a (List.mem_cons_self _ _)
    have hl := ih (fun w hw => h w (List.mem_cons_of_mem _ hw))
    simp only [List.map_cons]
    rw [← hl]
    congr 1
    cases a
    simp only at ha
    simp [ha]

theorem sent_of_done {σ : Type} (l : List (String × Collector σ)) :
    (l.map fun e => (⟨e.1, e.2, .done⟩ : Worker σ)).flatMap Worker.sent =
      l.flatMap fun e => e.2.emitted := by
  induction l with
  | nil => rfl
  | cons a l ih => simp [Worker.sent, ih]

theorem called_of_done {σ : Type} (l : List (String × Collector σ)) :
    (l.map fun e => (⟨e.1, e.2, .done⟩ : Worker σ)).flatMap Worker.called =
      l.map Prod.fst := by
  induction l with
  | nil => rfl
  | cons a l ih => simp [Worker.called, ih]

theorem recorded_of_done {σ : Type} (l : List (String × Collector σ)) :
    (l.map fun e => (⟨e.1, e.2, .done⟩ : Worker σ)).flatMap Worker.recorded =
      l.map fun e => (e.1, resultOf e.2.err) := by
  induction l with
  | nil => rfl
  | cons a l ih => simp [Worker.recorded, Worker.labels, ih]

/-- The state of a call once the wait is over. -/
theorem Inv.joined_state {σ : Type} {coll : LogstashCollector σ} {v : SummaryVec}
    {s : State σ} (hs : Inv coll v s) (hm : s.main = .aggregating ∨ s.main = .returned) :
    s.workers = coll.collectors.map (fun e => (⟨e.1, e.2, .done⟩ : Worker σ)) ∧
    (domainSamples s.ch).Perm (coll.collectors.flatMap fun e => e.2.emitted) ∧
    s.calls.Perm (coll.collectors.map Prod.fst) ∧
    (∀ lv, lv ∈ s.scrapeDurations.keys ↔
      lv ∈ v.keys ∨ lv ∈ coll.collectors.map fun e => (e.1, resultOf e.2.err)) ∧
    (∀ lv, s.scrapeDurations.observations lv = v.observations lv +
      (coll.collectors.map fun e => (e.1, resultOf e.2.err)).countP
        (fun x => decide (x = lv))) := by
  have hw : s.workers = coll.collectors.map (fun e => (⟨e.1, e.2, .done⟩ : Worker σ)) := by
    have := workers_of_done s.workers (hs.joined hm)
    rw [hs.entries] at this
    exact this
  refine ⟨hw, ?_, ?_, ?_, ?_⟩
  · have := hs.domain
    rw [hw, sent_of_done] at this
    exact this
  · have := hs.invoked
    rw [hw, called_of_done] at this
    exact this
  · intro lv
    have := hs.keysMem lv
    rw [hw, recorded_of_done] at this
    exact this
  · intro lv
    have := hs.observed lv
    rw [hw, recorded_of_done] at this
    exact this

/-! ## Lemmas for the statements -/

theorem called_sublist {σ : Type} (l : List (Worker σ)) :
    (l.flatMap Worker.called).Sublist (l.map fun w => w.name) := by
  induction l with
  | nil => simp
  | cons a l ih =>
    simp only [List.flatMap_cons, List.map_cons]
    unfold Worker.called
    split
    · exact List.Sublist.cons _ ih
    · exact List.Sublist.cons _ ih
    · exact List.Sublist.cons₂ _ ih

theorem names_of_entries {σ : Type} {coll : LogstashCollector σ} {v : SummaryVec}
    {s : State σ} (hs : Inv coll v s) :
    (s.workers.map fun w => w.name) = coll.collectors.map Prod.fst := by
  rw [← hs.entries, List.map_map]
  rfl

/-- A child of the vector is collected with the count that the vector holds. -/
theorem SummaryVec.exists_sample (v : SummaryVec) (lv : Labels) (h : lv ∈ SummaryVec.keys v) :
    ∃ x ∈ SummaryVec.Collect v, x.labels = lv ∧ x.count = SummaryVec.observations v lv := by
  induction v with
  | nil => simp [SummaryVec.keys] at h
  | cons e v ih =>
    obtain ⟨k, c⟩ := e
    by_cases hk : lv = k
    · subst hk
      refine ⟨⟨lv.1, lv.2, c.count, c.sum⟩, ?_, rfl, ?_⟩
      · simp [SummaryVec.Collect]
      · simp [SummaryVec.observations, List.lookup]
    · have hmem : lv ∈ SummaryVec.keys v := by
        simp only [SummaryVec.keys, List.map_cons, List.mem_cons] at h
        rcases h with h | h
        · exact absurd h hk
        · exact h
      obtain ⟨x, hx, hl, hc⟩ := ih hmem
      refine ⟨x, ?_, hl, ?_⟩
      · simp only [SummaryVec.Collect, List.map_cons, List.mem_cons]
        exact Or.inr hx
      · have : (lv == k) = false := by simpa using hk
        simp only [SummaryVec.observations, List.lookup, this]
        exact hc

theorem countP_eq_one {α : Type} [DecidableEq α] (l : List α) (a : α) (hn : l.Nodup)
    (ha : a ∈ l) : l.countP (fun x => decide (x = a)) = 1 := by
  induction l with
  | nil => simp at ha
  | cons b l ih =>
    rw [List.nodup_cons] at hn
    by_cases hb : b = a
    · subst hb
      have : l.countP (fun x => decide (x = b)) = 0 := by
        rw [List.countP_eq_zero]
        intro x hx
        simp only [decide_eq_true_eq]
        intro hxb
        exact hn.1 (hxb ▸ hx)
      simp [List.countP_cons, this]
    · have hmem : a ∈ l := by
        rcases List.mem_cons.mp ha with h | h
        · exact absurd h.symm hb
        · exact h
      simp [List.countP_cons, hb, ih hn.2 hmem]

/-- Distinct names give distinct label values. -/
theorem labels_nodup {σ : Type} (l : List (String × Collector σ))
    (hn : (l.map Prod.fst).Nodup) : (l.map fun e => (e.1, resultOf e.2.err)).Nodup := by
  have : (l.map fun e => (e.1, resultOf e.2.err)).map Prod.fst = l.map Prod.fst := by
    rw [List.map_map]
    rfl
  rw [← this] at hn
  exact List.Nodup.of_map _ hn

/-- What `LogstashCollector.Collect` returns is the channel and the vector
of a state in which the call has returned. -/
theorem Collect_eq_some {σ : Type} {coll : LogstashCollector σ} {sched : List Action}
    {v : SummaryVec} {out : Shared σ} (h : coll.Collect sched v = some out) :
    ∃ s, exec sched (State.init coll v) = some s ∧ s.main = .returned ∧
      out.ch = s.ch ∧ out.scrapeDurations = s.scrapeDurations := by
  unfold LogstashCollector.Collect at h
  cases he : exec sched (State.init coll v) with
  | none => simp [he] at h
  | some s =>
    simp only [he] at h
    split at h
    · rename_i hm
      simp only [Option.some.injEq] at h
      subst h
      exact ⟨s, rfl, hm, rfl, rfl⟩
    · simp at h

theorem finished_of_done {σ : Type} (l : List (String × Collector σ)) :
    ((l.map fun e => (⟨e.1, e.2, .done⟩ : Worker σ)).flatMap Worker.finished).length =
      l.length := by
  induction l with
  | nil => rfl
  | cons a l ih => simp [Worker.finished, ih]

/-- The observations a returned call leaves for the label values of a
registered collector, when the names of the registry are distinct. -/
theorem Inv.observed_once {σ : Type} {coll : LogstashCollector σ} {v : SummaryVec}
    {s : State σ} (hs : Inv coll v s) (hm : s.main = .aggregating ∨ s.main = .returned)
    (hnames : (coll.collectors.map Prod.fst).Nodup) :
    ∀ e ∈ coll.collectors, s.scrapeDurations.observations (e.1, resultOf e.2.err) =
      v.observations (e.1, resultOf e.2.err) + 1 := by
  intro e he
  rw [(hs.joined_state hm).2.2.2.2 (e.1, resultOf e.2.err)]
  rw [countP_eq_one _ _ (labels_nodup _ hnames)
    (List.mem_map.mpr ⟨e, he, rfl⟩)]

/-! ## The goroutine and `execute` -/

/-- The steps of a goroutine inside `c.Collect(ch)`, run without interruption
up to the observation. -/
theorem exec_sending {σ : Type} (i : Nat) (n : Nat) :
    ∀ (s : State σ) (w : Worker σ) (j : Nat), s.workers[i]? = some w → w.pc = .sending j →
      j + n = w.c.emitted.length →
      ∃ t, exec (List.replicate (n + 1) (Action.unit i)) s = some t ∧
        t.ch = s.ch ++ (w.c.emitted.drop j).map Metric.domain ∧
        t.scrapeDurations = s.scrapeDurations.Observe (w.name, resultOf w.c.err) w.c.elapsed ∧
        t.workers = s.workers.set i { w with pc := .observed } := by
  induction n with
  | zero =>
    intro s w j hw hpc hj
    have hx : w.c.emitted[j]? = none := List.getElem?_eq_none (by omega)
    refine ⟨{ s with workers := s.workers.set i { w with pc := .observed },
                     scrapeDurations :=
                       s.scrapeDurations.Observe (w.name, resultOf w.c.err) w.c.elapsed },
      ?_, ?_, rfl, rfl⟩
    · simp only [List.replicate, exec, step, stepUnit, hw, hpc, hx]
    · simp only [List.drop_of_length_le (show w.c.emitted.length ≤ j by omega)]
      simp
  | succ n ih =>
    intro s w j hw hpc hj
    have hlt : j < w.c.emitted.length := by omega
    have hx : w.c.emitted[j]? = some w.c.emitted[j] := List.getElem?_eq_getElem hlt
    have hi : i < s.workers.length := by
      rcases Nat.lt_or_ge i s.workers.length with h | h
      · exact h
      · rw [List.getElem?_eq_none h] at hw
        simp at hw
    obtain ⟨t, ht, hch, hsd, hws⟩ := ih
      { s with workers := s.workers.set i { w with pc := .sending (j + 1) },
               ch := s.ch ++ [Metric.domain w.c.emitted[j]] }
      { w with pc := .sending (j + 1) } (j + 1)
      (by simp [List.getElem?_set, hi]) rfl (by simp only; omega)
    refine ⟨t, ?_, ?_, ?_, ?_⟩
    · rw [List.replicate_succ]
      simp only [exec, step, stepUnit, hw, hpc, hx]
      exact ht
    · rw [hch]
      simp only [List.append_assoc]
      rw [List.drop_eq_getElem_cons hlt]
      rfl
    · exact hsd
    · rw [hws]
      simp [List.set_set]

/-- The steps of one goroutine from its launch to the observation, run
without interruption, do to the channel and to scrapeDurations what `execute`
does. -/
theorem exec_launched_eq_execute {σ : Type} (i : Nat) (s : State σ) (w : Worker σ)
    (hw : s.workers[i]? = some w) (hpc : w.pc = .launched) :
    ∃ t, exec (List.replicate (w.c.emitted.length + 2) (Action.unit i)) s = some t ∧
      (⟨t.ch, t.scrapeDurations⟩ : Shared σ) = execute w.name w.c ⟨s.ch, s.scrapeDurations⟩ ∧
      t.workers = s.workers.set i { w with pc := .observed } := by
  have hi : i < s.workers.length := by
    rcases Nat.lt_or_ge i s.workers.length with h | h
    · exact h
    · rw [List.getElem?_eq_none h] at hw
      simp at hw
  obtain ⟨t, ht, hch, hsd, hws⟩ := exec_sending i w.c.emitted.length
    { s with workers := s.workers.set i { w with pc := .sending 0 },
             calls := s.calls ++ [w.name] }
    { w with pc := .sending 0 } 0
    (by simp [List.getElem?_set, hi]) rfl (by simp)
  refine ⟨t, ?_, ?_, ?_⟩
  · rw [List.replicate_succ]
    simp only [exec, step, stepUnit, hw, hpc]
    exact ht
  · rw [hch, hsd]
    simp [execute]
  · rw [hws]
    simp [List.set_set]

/-! ## Theorems: the orchestrator -/

/-- C2: execute records exactly one duration observation, for the label values
collector=name and result=r: the child with these label values has one
observation more, every other child has as many as before, and no child with
other label values appears. The result r is "success" exactly when the
collector returned the nil error and "error" exactly when it returned an
error, and r is never anything else. -/
theorem execute_records_one {σ : Type} (name : String) (c : Collector σ) (s : Shared σ) :
    (∀ lv, (execute name c s).scrapeDurations.observations lv =
      s.scrapeDurations.observations lv + if lv = (name, resultOf c.err) then 1 else 0) ∧
    (∀ lv ∈ (execute name c s).scrapeDurations.keys,
      lv ∈ s.scrapeDurations.keys ∨ lv = (name, resultOf c.err)) ∧
    (name, resultOf c.err) ∈ (execute name c s).scrapeDurations.keys ∧
    (resultOf c.err = "success" ↔ c.err = none) ∧
    (resultOf c.err = "error" ↔ c.err ≠ none) ∧
    (resultOf c.err = "success" ∨ resultOf c.err = "error") ∧
    (execute name c s).ch = s.ch ++ c.emitted.map Metric.domain := by
  refine ⟨?_, ?_, ?_, ?_, ?_, ?_, rfl⟩
  · intro lv
    exact SummaryVec.observations_Observe _ _ _ _
  · intro lv hlv
    simp only [execute, SummaryVec.keys_Observe] at hlv
    split at hlv
    · exact Or.inl hlv
    · simpa using hlv
  · simp only [execute, SummaryVec.keys_Observe]
    split
    · assumption
    · simp
  · cases c.err <;> simp [resultOf]
  · cases c.err <;> simp [resultOf]
  · cases c.err <;> simp [resultOf]

/-- C3: in a call of Collect, under every schedule, no collector is invoked
more than once, and when the call has returned every registered collector has
been invoked exactly once, whatever errors the collectors return. The call
always completes: a schedule has at most `stepBound` steps, in every state
before the return some goroutine can move (no deadlock, no panic), and every
state reached can be run on to the return. -/
theorem Collect_invokes_each_once {σ : Type} (coll : LogstashCollector σ) (v : SummaryVec)
    (sched : List Action) (s : State σ) (h : exec sched (State.init coll v) = some s) :
    s.calls.Subperm (coll.collectors.map Prod.fst) ∧
    (s.main = .returned → s.calls.Perm (coll.collectors.map Prod.fst)) ∧
    sched.length ≤ stepBound coll ∧
    (s.main = .returned → sched.length = stepBound coll) ∧
    (s.main ≠ .returned → ∃ a t, step a s = some t) ∧
    (∃ rest t, exec (sched ++ rest) (State.init coll v) = some t ∧ t.main = .returned ∧
      t.calls.Perm (coll.collectors.map Prod.fst)) := by
  have hs := Inv.reach coll v sched s h
  have hp := progress_exec sched (Inv.init coll v) h
  have hi := progress_init coll v
  have hb := progress_le_bound s
  refine ⟨?_, ?_, ?_, ?_, ?_, ?_⟩
  · have := (called_sublist s.workers).subperm
    rw [names_of_entries hs] at this
    exact hs.invoked.subperm.trans this
  · intro hm
    exact (hs.joined_state (Or.inr hm)).2.2.1
  · omega
  · intro hm
    have hw := (hs.joined_state (Or.inr hm)).1
    have hsum : ∀ l : List (String × Collector σ),
        ((l.map fun e => (⟨e.1, e.2, .done⟩ : Worker σ)).map Worker.progress).sum + l.length =
          (l.map fun e => e.2.emitted.length + 4).sum := by
      intro l
      induction l with
      | nil => rfl
      | cons a l ih =>
        simp only [List.map_cons, List.sum_cons, List.length_cons, Worker.progress]
        omega
    have hlen : s.workers.length = coll.collectors.length := by
      rw [hw, List.length_map]
    have h1 : s.progress = stepBound coll := by
      simp only [State.progress, hm, MainPc.progress, stepBound, hlen]
      rw [hw]
      have := hsum coll.collectors
      omega
    omega
  · intro hm
    exact exists_step hs hm
  · obtain ⟨rest, t, ht, hret⟩ := exists_complete (s.bound - s.progress) s hs (Nat.le_refl _)
    refine ⟨rest, t, ?_, hret, ?_⟩
    · rw [exec_append, h]
      exact ht
    · exact ((hs.exec rest ht).joined_state (Or.inr hret)).2.2.1

/-- Witness of C3: two collectors, one of which fails, interleaved. -/
theorem Collect_invokes_each_once_witness :
    nodeAndInfoReturned.calls.Perm (nodeAndInfo.collectors.map Prod.fst) ∧
    interleavedFailing.length = stepBound nodeAndInfo :=
  have h := Collect_invokes_each_once nodeAndInfo [] interleavedFailing nodeAndInfoReturned
    (by decide)
  ⟨h.2.1 rfl, h.2.2.2.1 rfl⟩

/-- C10: under every schedule, no scrape-duration sample is on the channel
before the call returns; the calling goroutine is past `wg.Wait()` only when
every launched goroutine is done, the counter is zero, every collector has
sent all its samples and its duration has been observed once; and when the
call has returned the channel holds the samples of scrapeDurations as it then
is, among them, for every registered collector, a sample with its name and
result whose count includes the observation of this call. (The names of the
registry are distinct, as the keys of a map are.) -/
theorem Collect_waits_for_all {σ : Type} (coll : LogstashCollector σ) (v : SummaryVec)
    (sched : List Action) (s : State σ) (hnames : (coll.collectors.map Prod.fst).Nodup)
    (h : exec sched (State.init coll v) = some s) :
    (s.main ≠ .returned → scrapeSamples s.ch = []) ∧
    (s.main = .aggregating ∨ s.main = .returned →
      s.workers = coll.collectors.map (fun e => (⟨e.1, e.2, .done⟩ : Worker σ)) ∧
      s.wg = 0 ∧
      (domainSamples s.ch).Perm (coll.collectors.flatMap fun e => e.2.emitted) ∧
      ∀ e ∈ coll.collectors, s.scrapeDurations.observations (e.1, resultOf e.2.err) =
        v.observations (e.1, resultOf e.2.err) + 1) ∧
    (s.main = .returned →
      scrapeSamples s.ch = s.scrapeDurations.Collect ∧
      ∀ e ∈ coll.collectors, ∃ x ∈ scrapeSamples s.ch,
        x.collector = e.1 ∧ x.result = resultOf e.2.err ∧
        x.count = v.observations (e.1, resultOf e.2.err) + 1) := by
  have hs := Inv.reach coll v sched s h
  refine ⟨?_, ?_, ?_⟩
  · intro hm
    have := hs.scrape
    simp only [hm, if_false] at this
    exact this
  · intro hm
    have hj := hs.joined_state hm
    refine ⟨hj.1, ?_, hj.2.1, hs.observed_once hm hnames⟩
    have hc := hs.counter
    rw [hj.1, finished_of_done, List.length_map] at hc
    omega
  · intro hm
    have hsc := hs.scrape
    simp only [hm, if_true] at hsc
    refine ⟨hsc, ?_⟩
    intro e he
    have hkey : (e.1, resultOf e.2.err) ∈ s.scrapeDurations.keys :=
      ((hs.joined_state (Or.inr hm)).2.2.2.1 _).mpr
        (Or.inr (List.mem_map.mpr ⟨e, he, rfl⟩))
    obtain ⟨x, hx, hl, hcount⟩ := SummaryVec.exists_sample _ _ hkey
    refine ⟨x, hsc ▸ hx, ?_, ?_, ?_⟩
    · exact congrArg Prod.fst hl
    · exact congrArg Prod.snd hl
    · rw [hcount]
      exact hs.observed_once (Or.inr hm) hnames e he

/-- Witness of C10: two collectors, one of which fails, interleaved. -/
theorem Collect_waits_for_all_witness :
    nodeAndInfoReturned.wg = 0 ∧
    scrapeSamples nodeAndInfoReturned.ch = nodeAndInfoReturned.scrapeDurations.Collect :=
  have h := Collect_waits_for_all nodeAndInfo [] interleavedFailing nodeAndInfoReturned
    (by decide) (by decide)
  ⟨(h.2.1 (Or.inr rfl)).2.1, (h.2.2 rfl).1⟩

/-- C1, counterexample: a registry of one collector, "node". The first call
of Collect, in which the collector fails, leaves a child for ("node", "error")
in scrapeDurations; the second call, in which it succeeds, then sends two
scrape-duration samples, not one. -/
theorem Collect_second_call_two_samples :
    nodeFails.Collect (sequentialSchedule nodeFails) [] =
      some ⟨[.scrapeDuration ⟨"node", "error", 1, 3⟩], [(("node", "error"), ⟨1, 3⟩)]⟩ ∧
    nodeSucceeds.Collect (sequentialSchedule nodeSucceeds) [(("node", "error"), ⟨1, 3⟩)] =
      some ⟨[.domain "jvm_uptime_seconds", .scrapeDuration ⟨"node", "error", 1, 3⟩,
          .scrapeDuration ⟨"node", "success", 1, 5⟩],
        [(("node", "error"), ⟨1, 3⟩), (("node", "success"), ⟨1, 5⟩)]⟩ ∧
    (scrapeSamples ([.domain "jvm_uptime_seconds", .scrapeDuration ⟨"node", "error", 1, 3⟩,
      .scrapeDuration ⟨"node", "success", 1, 5⟩] : List (Metric String))).length = 2 ∧
    nodeSucceeds.collectors.length = 1 := by
  decide

/-- C1, amended: scrapeDurations is carried from one call of Collect to the
next. A call that returns has sent one scrape-duration sample for each pair of
label values (collector, result) that scrapeDurations then holds, and no two
for the same pair: the pairs it held before the call and the pair (name,
result) of each of the N collectors in this call. So there are at least N
samples; and there are exactly N, one per collector name, when every pair held
before the call is a pair of this call, as on the first call. (The names of
the registry and the label values of the children are distinct, as the keys of
a map are.) -/
theorem Collect_scrape_samples {σ : Type} (coll : LogstashCollector σ) (v : SummaryVec)
    (sched : List Action) (out : Shared σ) (hnames : (coll.collectors.map Prod.fst).Nodup)
    (hv : v.keys.Nodup) (h : coll.Collect sched v = some out) :
    ((scrapeSamples out.ch).map ScrapeSample.labels).Nodup ∧
    (∀ lv, lv ∈ (scrapeSamples out.ch).map ScrapeSample.labels ↔
      lv ∈ v.keys ∨ lv ∈ coll.collectors.map fun e => (e.1, resultOf e.2.err)) ∧
    (scrapeSamples out.ch).map ScrapeSample.labels = out.scrapeDurations.keys ∧
    coll.collectors.length ≤ (scrapeSamples out.ch).length ∧
    ((∀ lv ∈ v.keys, lv ∈ coll.collectors.map fun e => (e.1, resultOf e.2.err)) →
      ((scrapeSamples out.ch).map ScrapeSample.labels).Perm
        (coll.collectors.map fun e => (e.1, resultOf e.2.err)) ∧
      (scrapeSamples out.ch).length = coll.collectors.length ∧
      ((scrapeSamples out.ch).map ScrapeSample.collector).Perm
        (coll.collectors.map Prod.fst)) := by
  obtain ⟨s, hexec, hm, hch, hsd⟩ := Collect_eq_some h
  have hs := Inv.reach coll v sched s hexec
  have hsc := hs.scrape
  simp only [hm, if_true] at hsc
  have hlabels : (scrapeSamples out.ch).map ScrapeSample.labels = s.scrapeDurations.keys := by
    rw [hch, hsc, SummaryVec.keys_Collect]
  have hnd : ((scrapeSamples out.ch).map ScrapeSample.labels).Nodup := by
    rw [hlabels]
    exact hs.keysNodup hv
  have hmem := (hs.joined_state (Or.inr hm)).2.2.2.1
  have hln := labels_nodup coll.collectors hnames
  refine ⟨hnd, ?_, ?_, ?_, ?_⟩
  · intro lv
    rw [hlabels]
    exact hmem lv
  · rw [hlabels, hsd]
  · have hsub : (coll.collectors.map fun e => (e.1, resultOf e.2.err)).Subperm
        ((scrapeSamples out.ch).map ScrapeSample.labels) := by
      apply List.subperm_of_subset hln
      intro lv hlv
      rw [hlabels]
      exact (hmem lv).mpr (Or.inr hlv)
    have := hsub.length_le
    simpa using this
  · intro hprior
    have hperm : ((scrapeSamples out.ch).map ScrapeSample.labels).Perm
        (coll.collectors.map fun e => (e.1, resultOf e.2.err)) := by
      rw [List.perm_ext_iff_of_nodup hnd hln]
      intro lv
      rw [hlabels, hmem lv]
      constructor
      · intro hlv
        rcases hlv with hlv | hlv
        · exact hprior lv hlv
        · exact hlv
      · intro hlv
        exact Or.inr hlv
    refine ⟨hperm, ?_, ?_⟩
    · have := hperm.length_eq
      simpa using this
    · have := hperm.map Prod.fst
      simp only [List.map_map] at this
      exact this

/-- Witness of C1, amended: the first call on two collectors, one failing. -/
theorem Collect_scrape_samples_witness :
    (scrapeSamples nodeAndInfoReturned.ch).length = nodeAndInfo.collectors.length :=
  ((Collect_scrape_samples nodeAndInfo [] interleavedFailing
    ⟨nodeAndInfoReturned.ch, nodeAndInfoReturned.scrapeDurations⟩ (by decide) (by decide)
    (by decide)).2.2.2.2 (by decide)).2.1

/-- C9, counterexample: a registry of one collector, "info", that succeeds.
A call before (in which the collector failed) left a child for ("info",
"error") in scrapeDurations; the channel then holds, next to the sample of the
collector and the result="success" sample, a result="error" sample, so it is
not the samples of the collectors plus N result="success" samples. -/
theorem Collect_all_succeed_error_sample :
    infoFails.Collect (sequentialSchedule infoFails) [] =
      some ⟨[.scrapeDuration ⟨"info", "error", 1, 4⟩], [(("info", "error"), ⟨1, 4⟩)]⟩ ∧
    infoSucceeds.Collect (sequentialSchedule infoSucceeds) [(("info", "error"), ⟨1, 4⟩)] =
      some ⟨[.domain "node_info", .scrapeDuration ⟨"info", "error", 1, 4⟩,
          .scrapeDuration ⟨"info", "success", 1, 6⟩],
        [(("info", "error"), ⟨1, 4⟩), (("info", "success"), ⟨1, 6⟩)]⟩ ∧
    ¬ ∃ outs : List ScrapeSample,
      ([.domain "node_info", .scrapeDuration ⟨"info", "error", 1, 4⟩,
        .scrapeDuration ⟨"info", "success", 1, 6⟩] : List (Metric String)).Perm
        ((infoSucceeds.collectors.flatMap fun e => e.2.emitted).map Metric.domain ++
          outs.map Metric.scrapeDuration) ∧
      (outs.map ScrapeSample.labels).Perm
        (infoSucceeds.collectors.map fun e => (e.1, "success")) := by
  refine ⟨by decide, by decide, ?_⟩
  rintro ⟨outs, h1, h2⟩
  have l1 := h1.length_eq
  have l2 := h2.length_eq
  simp [infoSucceeds] at l1 l2
  omega

/-- C9, amended: when all collectors of the registry succeed, the samples of
the collectors on the channel after a call of Collect are the samples the
collectors sent, none dropped and none twice, and the channel holds a
result="success" scrape-duration sample for every collector. When
scrapeDurations held, before the call, no child but result="success" children
of registered collectors (as on the first call), the channel holds the samples
of the collectors and N result="success" scrape-duration samples, one per
collector, and nothing else. (The names of the registry and the label values
of the children are distinct, as the keys of a map are.) -/
theorem Collect_all_succeed {σ : Type} (coll : LogstashCollector σ) (v : SummaryVec)
    (sched : List Action) (out : Shared σ) (hnames : (coll.collectors.map Prod.fst).Nodup)
    (hv : v.keys.Nodup) (hok : ∀ e ∈ coll.collectors, e.2.err = none)
    (h : coll.Collect sched v = some out) :
    (domainSamples out.ch).Perm (coll.collectors.flatMap fun e => e.2.emitted) ∧
    (∀ e ∈ coll.collectors, ∃ x ∈ scrapeSamples out.ch, x.labels = (e.1, "success")) ∧
    ((∀ lv ∈ v.keys, lv ∈ coll.collectors.map fun e => (e.1, "success")) →
      ∃ outs : List ScrapeSample,
        out.ch.Perm ((coll.collectors.flatMap fun e => e.2.emitted).map Metric.domain ++
          outs.map Metric.scrapeDuration) ∧
        (outs.map ScrapeSample.labels).Perm (coll.collectors.map fun e => (e.1, "success")) ∧
        outs.length = coll.collectors.length) := by
  obtain ⟨s, hexec, hm, hch, hsd⟩ := Collect_eq_some h
  have hs := Inv.reach coll v sched s hexec
  have hsc := hs.scrape
  simp only [hm, if_true] at hsc
  have hj := hs.joined_state (Or.inr hm)
  have hsucc : (coll.collectors.map fun e => (e.1, resultOf e.2.err)) =
      coll.collectors.map fun e => (e.1, "success") := by
    apply List.map_congr_left
    intro e he
    rw [hok e he]
    rfl
  have hlabels : (scrapeSamples out.ch).map ScrapeSample.labels = s.scrapeDurations.keys := by
    rw [hch, hsc, SummaryVec.keys_Collect]
  have hln := labels_nodup coll.collectors hnames
  rw [hsucc] at hln
  have hmem := hj.2.2.2.1
  rw [hsucc] at hmem
  refine ⟨hch ▸ hj.2.1, ?_, ?_⟩
  · intro e he
    have hkey : (e.1, "success") ∈ s.scrapeDurations.keys :=
      (hmem _).mpr (Or.inr (List.mem_map.mpr ⟨e, he, rfl⟩))
    obtain ⟨x, hx, hl, _⟩ := SummaryVec.exists_sample _ _ hkey
    exact ⟨x, by rw [hch, hsc]; exact hx, hl⟩
  · intro hprior
    have hperm : ((scrapeSamples out.ch).map ScrapeSample.labels).Perm
        (coll.collectors.map fun e => (e.1, "success")) := by
      have hnd : ((scrapeSamples out.ch).map ScrapeSample.labels).Nodup := by
        rw [hlabels]
        exact hs.keysNodup hv
      rw [List.perm_ext_iff_of_nodup hnd hln]
      intro lv
      rw [hlabels, hmem lv]
      constructor
      · intro hlv
        rcases hlv with hlv | hlv
        · exact hprior lv hlv
        · exact hlv
      · intro hlv
        exact Or.inr hlv
    refine ⟨scrapeSamples out.ch, ?_, hperm, ?_⟩
    · refine (perm_domain_scrape out.ch).trans ?_
      apply List.Perm.append_right
      apply List.Perm.map
      exact hch ▸ hj.2.1
    · have := hperm.length_eq
      simpa using this

/-- Witness of C9, amended: the first call on two collectors that succeed,
interleaved. -/
theorem Collect_all_succeed_witness :
    (domainSamples ([.domain "jvm_uptime_seconds", .domain "node_info", .domain "events_in",
      .scrapeDuration ⟨"info", "success", 1, 2⟩,
      .scrapeDuration ⟨"node", "success", 1, 5⟩] : List (Metric String))).Perm
      (bothSucceed.collectors.flatMap fun e => e.2.emitted) :=
  (Collect_all_succeed bothSucceed [] interleaved
    ⟨[.domain "jvm_uptime_seconds", .domain "node_info", .domain "events_in",
      .scrapeDuration ⟨"info", "success", 1, 2⟩, .scrapeDuration ⟨"node", "success", 1, 5⟩],
      [(("info", "success"), ⟨1, 2⟩), (("node", "success"), ⟨1, 5⟩)]⟩
    (by decide) (by decide) (by decide) (by decide)).1

/-- C8: when NewNodeStatsCollector returns an error, main logs "Cannot
register a new collector" and still puts what the constructor returned (here
no collector) in the registry under "node"; the registry has the keys "node"
and "info" whatever the constructors return. -/
theorem mainRegistry_keeps_failed :
    (mainRegistry (none, some "missing protocol scheme")
      (some (⟨["node_info"], none, 6⟩ : Collector String), none)).collectors =
        [("node", none), ("info", some ⟨["node_info"], none, 6⟩)] ∧
    (mainRegistry (none, some "missing protocol scheme")
      (some (⟨["node_info"], none, 6⟩ : Collector String), none)).logged =
        [("Cannot register a new collector", "missing protocol scheme")] ∧
    ∀ (γ : Type) (nodeStats nodeInfo : Constructed γ),
      (mainRegistry nodeStats nodeInfo).collectors.map Prod.fst = ["node", "info"] := by
  refine ⟨by decide, by decide, ?_⟩
  intro γ nodeStats nodeInfo
  rfl

end Logstash
